import Mathlib

/-!
Verification development for the Slack-Pack rectangle-packing repository.

The Python sources are shallowly embedded here:

* detail/detail.py                         : structure Detail, width, height
* storage/in_memory_box_storage.py         : memAdd / memGetMaxBox / memPopMaxBox
* storage/hybrid_box_storage.py            : the cached coordinator (CoordState) with
                                             the plain reload
* storage/hybrid_partitioned_box_storage.py: the same coordinator with the
                                             partition-by-partition reload and
                                             createPartitionRanges
* algorithm/slack_pack_algorithm.py        : EngineState and the four sub-procedures
                                             of place_next
* core/detail_placer.py                    : runAlgorithm
* detail/detail_generator.py               : the two harmonic generators

Numeric model: the Python code computes with IEEE doubles; the embedding works over
an arbitrary linear ordered field (instantiated at ℚ for executable witnesses and at
ℝ when the slack-gap formula (1/n)^γ with a real γ is itself under scrutiny).  The
slack-gap computation pow(1 / index, gamma) is abstracted as a function
gap : ℕ → α wherever the engine only compares it; requiredGap γ over ℝ is its
faithful instance.
-/

namespace SlackPack

/-- Embeds detail/detail.py: an axis-aligned rectangle with a bottom-left corner,
a top-right corner, a name and a type tag.  Python's `__eq__` compares all four
fields, which is exactly structure equality here. -/
structure Detail (α : Type) where
  bottom_left : α × α
  top_right : α × α
  name : String
  detail_type : String
  deriving DecidableEq, Repr

variable {α : Type} [LinearOrderedField α]

namespace Detail

/-- `width` property: top_right.x − bottom_left.x. -/
def width (d : Detail α) : α := d.top_right.1 - d.bottom_left.1

/-- `height` property: top_right.y − bottom_left.y. -/
def height (d : Detail α) : α := d.top_right.2 - d.bottom_left.2

end Detail

/-- The priority key used by every box storage: min(width, height). -/
def dkey (d : Detail α) : α := min d.width d.height

/-- Signed area of a rectangle (width times height). -/
def darea (d : Detail α) : α := d.width * d.height

/-- Sum of the areas of a list of rectangles. -/
def areaSum (l : List (Detail α)) : α := (l.map darea).sum

/-- Weak properness: the corners are in the right order (possibly degenerate). -/
def ProperW (d : Detail α) : Prop :=
  d.bottom_left.1 ≤ d.top_right.1 ∧ d.bottom_left.2 ≤ d.top_right.2

/-- Strict properness: positive width and height. -/
def ProperS (d : Detail α) : Prop :=
  d.bottom_left.1 < d.top_right.1 ∧ d.bottom_left.2 < d.top_right.2

/-- `Inside s d`: rectangle `d` lies (weakly) inside rectangle `s`. -/
def Inside (s d : Detail α) : Prop :=
  s.bottom_left.1 ≤ d.bottom_left.1 ∧ d.top_right.1 ≤ s.top_right.1 ∧
  s.bottom_left.2 ≤ d.bottom_left.2 ∧ d.top_right.2 ≤ s.top_right.2

/-- Separation of two rectangles by an axis-aligned line: they touch at most at
their boundaries. -/
def Sep (a b : Detail α) : Prop :=
  a.top_right.1 ≤ b.bottom_left.1 ∨ b.top_right.1 ≤ a.bottom_left.1 ∨
  a.top_right.2 ≤ b.bottom_left.2 ∨ b.top_right.2 ≤ a.bottom_left.2

/-- A point lies in the open interior of a rectangle. -/
def InteriorPt (p : α × α) (d : Detail α) : Prop :=
  d.bottom_left.1 < p.1 ∧ p.1 < d.top_right.1 ∧
  d.bottom_left.2 < p.2 ∧ p.2 < d.top_right.2

/-- Two rectangles share no interior point. -/
def NoSharedInterior (a b : Detail α) : Prop :=
  ∀ p : α × α, ¬(InteriorPt p a ∧ InteriorPt p b)

instance (d : Detail α) : Decidable (ProperW d) := by unfold ProperW; infer_instance
instance (d : Detail α) : Decidable (ProperS d) := by unfold ProperS; infer_instance
instance (s d : Detail α) : Decidable (Inside s d) := by unfold Inside; infer_instance
instance (a b : Detail α) : Decidable (Sep a b) := by unfold Sep; infer_instance

theorem Sep.symm' {a b : Detail α} (h : Sep a b) : Sep b a := by
  unfold Sep at h ⊢; tauto

/-- Separated rectangles share no interior point. -/
theorem Sep.noSharedInterior {a b : Detail α} (h : Sep a b) : NoSharedInterior a b := by
  rintro p ⟨⟨ha1, ha2, ha3, ha4⟩, ⟨hb1, hb2, hb3, hb4⟩⟩
  rcases h with h | h | h | h <;> linarith

/-- A rectangle inside another that is separated from a third is itself separated
from that third rectangle. -/
theorem Sep.of_inside {a q r : Detail α} (h : Sep a q) (hin : Inside q r) : Sep a r := by
  obtain ⟨h1, h2, h3, h4⟩ := hin
  rcases h with h | h | h | h
  · exact Or.inl (le_trans h h1)
  · exact Or.inr (Or.inl (le_trans h2 h))
  · exact Or.inr (Or.inr (Or.inl (le_trans h h3)))
  · exact Or.inr (Or.inr (Or.inr (le_trans h4 h)))

/-- A strictly proper rectangle inside `q` cannot be separated from `q`. -/
theorem not_sep_self_of_inside {q r : Detail α} (hs : ProperS r) (hin : Inside q r) :
    ¬ Sep r q := by
  obtain ⟨h1, h2, h3, h4⟩ := hin
  obtain ⟨p1, p2⟩ := hs
  rintro (h | h | h | h) <;> linarith

/-- `Inside` is transitive. -/
theorem Inside.trans {a b c : Detail α} (h1 : Inside a b) (h2 : Inside b c) : Inside a c := by
  obtain ⟨x1, x2, x3, x4⟩ := h1; obtain ⟨y1, y2, y3, y4⟩ := h2
  exact ⟨le_trans x1 y1, le_trans y2 x2, le_trans x3 y3, le_trans y4 x4⟩

/-!  ## In-memory box storage (storage/in_memory_box_storage.py)

`SortedSet(key=cmp_to_key(comparator))` with comparator
`min(d2.w, d2.h) − min(d1.w, d1.h)` keeps the boxes ordered by descending
min-side; an element with a key equal to existing ones is inserted after them
(bisect to the right), and adding an element already present (full equality) is
a no-op.  `boxes[0]` is the head. -/

/-- Insert into a list sorted by descending `dkey`, after any elements of equal
key (the sorted-container's bisect-right behaviour). -/
def insertDesc (d : Detail α) : List (Detail α) → List (Detail α)
  | [] => [d]
  | x :: xs => if dkey x < dkey d then d :: x :: xs else x :: insertDesc d xs

/-- `add_box` of the in-memory storage: set-semantics sorted insertion. -/
def memAdd (d : Detail α) (l : List (Detail α)) : List (Detail α) :=
  if d ∈ l then l else insertDesc d l

/-- `get_max_box` of the in-memory storage: the head, or None when empty. -/
def memGetMaxBox (l : List (Detail α)) : Option (Detail α) := l.head?

/-- `pop_max_box` of the in-memory storage: the head and the remaining boxes;
None (with the storage unchanged) when empty. -/
def memPopMaxBox (l : List (Detail α)) : Option (Detail α) × List (Detail α) :=
  match l with
  | [] => (none, [])
  | x :: xs => (some x, xs)

/-- Ordering invariant of the in-memory storage: descending by key. -/
def SortedDesc (l : List (Detail α)) : Prop :=
  l.Pairwise (fun a b => dkey b ≤ dkey a)

theorem mem_insertDesc {l : List (Detail α)} {d b : Detail α} :
    b ∈ insertDesc d l ↔ b = d ∨ b ∈ l := by
  induction l with
  | nil => simp [insertDesc]
  | cons x xs ih =>
    simp only [insertDesc]
    by_cases hc : dkey x < dkey d
    · rw [if_pos hc]; simp only [List.mem_cons]
    · rw [if_neg hc]; simp only [List.mem_cons, ih]; tauto

theorem sortedDesc_insertDesc {l : List (Detail α)} (h : SortedDesc l) (d : Detail α) :
    SortedDesc (insertDesc d l) := by
  induction l with
  | nil => simp [insertDesc, SortedDesc]
  | cons x xs ih =>
    rw [SortedDesc, List.pairwise_cons] at h
    simp only [insertDesc]
    by_cases hc : dkey x < dkey d
    · rw [if_pos hc]
      refine List.Pairwise.cons ?_ (List.pairwise_cons.mpr h)
      intro b hb
      rcases List.mem_cons.mp hb with rfl | hb
      · exact le_of_lt hc
      · exact le_trans (h.1 b hb) (le_of_lt hc)
    · rw [if_neg hc]
      refine List.Pairwise.cons ?_ (ih h.2)
      intro b hb
      rcases mem_insertDesc.mp hb with rfl | hb
      · exact le_of_not_lt hc
      · exact h.1 b hb

theorem insertDesc_perm (d : Detail α) (l : List (Detail α)) :
    (insertDesc d l).Perm (d :: l) := by
  induction l with
  | nil => simp [insertDesc]
  | cons x xs ih =>
    simp only [insertDesc]
    by_cases hc : dkey x < dkey d
    · rw [if_pos hc]
    · rw [if_neg hc]
      exact (ih.cons x).trans (List.Perm.swap d x xs)

/-- The head of a descending-sorted list bounds every element's key. -/
theorem sortedDesc_head_max {l : List (Detail α)} (h : SortedDesc l) {x : Detail α}
    (hx : l.head? = some x) : ∀ b ∈ l, dkey b ≤ dkey x := by
  cases l with
  | nil => cases hx
  | cons y ys =>
    simp only [List.head?_cons, Option.some.injEq] at hx
    subst hx
    intro b hb
    rcases List.mem_cons.mp hb with rfl | hb
    · exact le_refl _
    · exact (List.pairwise_cons.mp h).1 b hb

/-!  ## The Slack-Pack engine (algorithm/slack_pack_algorithm.py)

The engine's mutable attributes become an explicit state record; `place_next`
becomes a function from the state and the placement list to `Except`.  The
slack-gap computation `pow(1 / index, gamma)` is passed in as `gap : ℕ → α`
(see `requiredGap` below for the real-number instance).  Statistic-listener
notifications carry no algorithmic effect and are not modelled.  Python's
partial list operations are modelled faithfully: `placed_details[0]` on an
empty list is `indexErr`, `list.remove` of an absent element is `valueErr`,
and reading an attribute of `None` (e.g. popping an empty storage and then
using the result) is `attrErr`. -/

/-- The error outcomes `place_next` can produce.  `lrpTooSmall` is the
`AlgorithmExecutionException("Unable to cut a new stripe, LRP is too small")`;
the other three model Python runtime errors on degenerate inputs. -/
inductive AlgoError where
  | lrpTooSmall
  | indexErr
  | valueErr
  | attrErr
  deriving DecidableEq, Repr

/-- Embeds the attributes of SlackPackAlgorithm (gamma itself is carried by the
`gap` function given to each step). -/
structure EngineState (α : Type) where
  n0 : ℕ
  maxPlaced : ℕ
  updatePlacedDetails : Bool
  boxStorage : List (Detail α)
  lrp : Option (Detail α)
  activeBox : Option (Detail α)
  activeBoxFirstDetailIndex : ℕ
  isActiveBoxHorizontal : Bool
  lastPlacedIndex : ℕ
  endpointsPlaced : ℕ
  activeBoxFrom : Option String
  deriving DecidableEq, Repr

/-- `__init__`: the state of a freshly constructed engine (empty in-memory
storage). -/
def initState (α : Type) [LinearOrderedField α] (n0 maxPlaced : ℕ)
    (updatePlacedDetails : Bool) : EngineState α :=
  { n0 := n0, maxPlaced := maxPlaced, updatePlacedDetails := updatePlacedDetails,
    boxStorage := [], lrp := none, activeBox := none,
    activeBoxFirstDetailIndex := n0 - 1, isActiveBoxHorizontal := false,
    lastPlacedIndex := n0 - 1, endpointsPlaced := 1, activeBoxFrom := none }

instance {ε β : Type} [DecidableEq ε] [DecidableEq β] : DecidableEq (Except ε β) :=
  fun x y =>
    match x, y with
    | .ok a, .ok b => decidable_of_iff (a = b) (by simp)
    | .error a, .error b => decidable_of_iff (a = b) (by simp)
    | .ok _, .error _ => isFalse (by simp)
    | .error _, .ok _ => isFalse (by simp)

/-- Python's `list.remove(x)`: drop the first element equal to `x`, or fail
(ValueError) when none is present. -/
def pyRemove (x : Detail α) : List (Detail α) → Option (List (Detail α))
  | [] => none
  | y :: ys => if y = x then some ys else (pyRemove x ys).map (y :: ·)

/-- `_check_if_lrp_none`: adopt `placed_details[0]` as the LRP on first use. -/
def checkIfLrpNone (st : EngineState α) (pl : List (Detail α)) :
    Except AlgoError (EngineState α) :=
  match st.lrp with
  | some _ => .ok st
  | none =>
    match pl with
    | [] => .error .indexErr
    | x :: _ => .ok {st with lrp := some x}

/-- `_check_active_box_size`: when the detail plus the required gap no longer
fits along the active box's major axis, the active box is added to box storage,
the endpoint counter is incremented, and the active box is cleared. -/
def checkActiveBoxSize (gap : ℕ → α) (detail : α × α) (st : EngineState α) :
    EngineState α :=
  match st.activeBox with
  | none => st
  | some ab =>
    let requiredGap := gap st.activeBoxFirstDetailIndex
    let totalLength := detail.1 + requiredGap
    if (st.isActiveBoxHorizontal = true ∧ totalLength > ab.width) ∨
        (st.isActiveBoxHorizontal = false ∧ totalLength > ab.height) then
      {st with boxStorage := memAdd ab st.boxStorage,
               activeBox := none,
               endpointsPlaced := st.endpointsPlaced + 1}
    else st

/-- `_choose_active_box_from_box`: pop the widest stored box and adopt it. -/
def chooseActiveBoxFromBox (st : EngineState α) : Except AlgoError (EngineState α) :=
  match memPopMaxBox st.boxStorage with
  | (none, _) => .error .attrErr
  | (some b, rest) =>
    .ok {st with boxStorage := rest, activeBox := some b,
                 activeBoxFrom := some b.detail_type,
                 isActiveBoxHorizontal := decide (b.width ≥ b.height)}

/-- `_cut_new_strip`: cut a stripe from the LRP, or raise when the LRP cannot
accommodate the detail with the required gap. -/
def cutNewStrip (gap : ℕ → α) (detail : α × α) (st : EngineState α)
    (pl : List (Detail α)) : Except AlgoError (EngineState α × List (Detail α)) :=
  match st.lrp with
  | none => .error .attrErr
  | some lrp =>
    let requiredGap := gap (st.lastPlacedIndex + 1)
    if detail.2 + requiredGap > max lrp.width lrp.height ∨
        detail.1 + requiredGap > min lrp.width lrp.height then
      .error .lrpTooSmall
    else
      let isHoriz : Bool := decide (lrp.width ≤ lrp.height)
      let activeBox : Detail α :=
        { bottom_left :=
            if lrp.width ≤ lrp.height then lrp.bottom_left
            else (lrp.top_right.1 - detail.2 - requiredGap, lrp.bottom_left.2),
          top_right :=
            if lrp.width ≤ lrp.height then
              (lrp.top_right.1, lrp.bottom_left.2 + detail.2 + requiredGap)
            else lrp.top_right,
          name := "E" ++ toString st.endpointsPlaced, detail_type := "endpoint_1" }
      let newLrp : Detail α :=
        { bottom_left :=
            if lrp.width ≤ lrp.height then
              (lrp.bottom_left.1, lrp.bottom_left.2 + detail.2 + requiredGap)
            else lrp.bottom_left,
          top_right :=
            if lrp.width ≤ lrp.height then lrp.top_right
            else (lrp.top_right.1 - detail.2 - requiredGap, lrp.top_right.2),
          name := "LRP", detail_type := "lrp" }
      let plStep : Except AlgoError (List (Detail α)) :=
        if st.updatePlacedDetails then
          match pyRemove lrp pl with
          | none => .error .valueErr
          | some pl' => .ok (pl' ++ [activeBox, newLrp])
        else .ok pl
      match plStep with
      | .error e => .error e
      | .ok plOut =>
        .ok ({st with activeBoxFrom := some lrp.detail_type,
                      isActiveBoxHorizontal := isHoriz,
                      activeBox := some activeBox,
                      lrp := some newLrp}, plOut)

/-- `_choose_active_box`: when no active box exists, set the first-detail index,
then either adopt the widest stored box (when the detail's height plus the gap
fits its min side) or cut a new stripe. -/
def chooseActiveBox (gap : ℕ → α) (detail : α × α) (st : EngineState α)
    (pl : List (Detail α)) : Except AlgoError (EngineState α × List (Detail α)) :=
  match st.activeBox with
  | some _ => .ok (st, pl)
  | none =>
    let st := {st with activeBoxFirstDetailIndex := st.lastPlacedIndex + 1}
    let maxBox := memGetMaxBox st.boxStorage
    let maxBoxSize : α :=
      match maxBox with
      | some b => min b.width b.height
      | none => -1
    let requiredGap := gap st.activeBoxFirstDetailIndex
    let totalLength := detail.2 + requiredGap
    if totalLength ≤ maxBoxSize then
      (chooseActiveBoxFromBox st).map (fun s => (s, pl))
    else
      cutNewStrip gap detail st pl

/-- `_get_normal_box_type`. -/
def getNormalBoxType (st : EngineState α) : String :=
  if st.activeBoxFrom = some "lrp" then "normal_box_1" else "normal_box_2"

/-- `_get_endpoint_type`. -/
def getEndpointType (st : EngineState α) : String :=
  if st.activeBoxFrom = some "lrp" ∨ st.activeBoxFrom = some "endpoint_1" then
    "endpoint_1"
  else "endpoint_2"

/-- `_place_detail_in_active_box`: cut the active box into the placed detail,
a normal box (stored) and an endpoint (the next active box). -/
def placeDetailInActiveBox (detail : α × α) (st : EngineState α)
    (pl : List (Detail α)) : Except AlgoError (EngineState α × List (Detail α)) :=
  let normalBoxType := getNormalBoxType st
  let endpointType := getEndpointType st
  match st.activeBox with
  | none => .error .attrErr
  | some ab =>
    let lastPlaced := st.lastPlacedIndex + 1
    let placedDetail : Detail α :=
      { bottom_left :=
          if st.isActiveBoxHorizontal then ab.bottom_left
          else (ab.top_right.1 - detail.2, ab.bottom_left.2),
        top_right :=
          if st.isActiveBoxHorizontal then
            (ab.bottom_left.1 + detail.1, ab.bottom_left.2 + detail.2)
          else (ab.top_right.1, ab.bottom_left.2 + detail.1),
        name := "D" ++ toString lastPlaced, detail_type := "detail" }
    let normalBox : Detail α :=
      { bottom_left :=
          if st.isActiveBoxHorizontal then
            (ab.bottom_left.1, ab.bottom_left.2 + detail.2)
          else ab.bottom_left,
        top_right :=
          if st.isActiveBoxHorizontal then
            (ab.bottom_left.1 + detail.1, ab.top_right.2)
          else (ab.top_right.1 - detail.2, ab.bottom_left.2 + detail.1),
        name := "B" ++ toString lastPlaced, detail_type := normalBoxType }
    let endpoint : Detail α :=
      { bottom_left :=
          if st.isActiveBoxHorizontal then
            (ab.bottom_left.1 + detail.1, ab.bottom_left.2)
          else (ab.bottom_left.1, ab.bottom_left.2 + detail.1),
        top_right := ab.top_right,
        name := "E" ++ toString st.endpointsPlaced, detail_type := endpointType }
    let plStep : Except AlgoError (List (Detail α)) :=
      if st.updatePlacedDetails then
        match pyRemove ab pl with
        | none => .error .valueErr
        | some pl' => .ok (pl' ++ [placedDetail, normalBox, endpoint])
      else .ok pl
    match plStep with
    | .error e => .error e
    | .ok plOut =>
      .ok ({st with lastPlacedIndex := lastPlaced,
                    activeBox := some endpoint,
                    boxStorage := memAdd normalBox st.boxStorage}, plOut)

/-- `place_next`: the four sub-procedures in order. -/
def placeNext (gap : ℕ → α) (detail : α × α) (st : EngineState α)
    (pl : List (Detail α)) : Except AlgoError (EngineState α × List (Detail α)) := do
  let st ← checkIfLrpNone st pl
  let st := checkActiveBoxSize gap detail st
  let (st, pl) ← chooseActiveBox gap detail st pl
  placeDetailInActiveBox detail st pl

/-!  ## The driver (core/detail_placer.py) -/

/-- Result of a driver run: the placement list, the engine's final state and
the number of `place_next` invocations that were made (a failing invocation
counts). -/
structure RunResult (α : Type) where
  placements : List (Detail α)
  finalState : EngineState α
  numCalls : ℕ
  deriving DecidableEq, Repr

/-- The driver loop: up to `fuel` more details, drawing `gen k`, `gen (k+1)`,
…; stops early when `place_next` raises, keeping the placements accumulated so
far. -/
def runAlgorithmAux (gap : ℕ → α) (gen : ℕ → α × α) :
    ℕ → ℕ → EngineState α → List (Detail α) → RunResult α
  | _, 0, st, pl => ⟨pl, st, 0⟩
  | k, fuel + 1, st, pl =>
    match placeNext gap (gen k) st pl with
    | .error _ => ⟨pl, st, 1⟩
    | .ok (st', pl') =>
      let r := runAlgorithmAux gap gen (k + 1) fuel st' pl'
      ⟨r.placements, r.finalState, r.numCalls + 1⟩

/-- `DetailPlacer.run_algorithm`: placements start as `[base_detail]`; at most
`max_placed` details are placed. -/
def runAlgorithm (gap : ℕ → α) (gen : ℕ → α × α) (baseDetail : Detail α)
    (st0 : EngineState α) (maxPlaced : ℕ) : RunResult α :=
  runAlgorithmAux gap gen 0 maxPlaced st0 [baseDetail]

/-!  ## The cached coordinator (storage/hybrid_box_storage.py and
storage/hybrid_partitioned_box_storage.py)

Both external storages share the same add/get/pop/sync code; they differ only
in how `_update_max_cache` refills the cache from the durable table.  The
table is modelled as the list `db` of its rows (insertion order); SQL
`ORDER BY min_size DESC` is modelled as a deterministic insertion sort by
descending key (the tie order among equal keys is database-dependent in the
source). -/

/-- A state of the cached coordinator. -/
structure CoordState (α : Type) where
  cacheSize : ℕ
  toAdd : List (Detail α)
  maxCache : List (Detail α)
  toDelete : List (Detail α)
  db : List (Detail α)
  deriving DecidableEq, Repr

/-- A freshly constructed hybrid storage: empty caches and a freshly recreated
(empty) table. -/
def initCoord (α : Type) [LinearOrderedField α] (cacheSize : ℕ) : CoordState α :=
  { cacheSize := cacheSize, toAdd := [], maxCache := [], toDelete := [], db := [] }

/-- `ORDER BY min_size DESC` on the table rows. -/
def sortDesc (l : List (Detail α)) : List (Detail α) :=
  l.insertionSort (fun a b => dkey b ≤ dkey a)

/-- `_update_max_cache` of HybridBoxStorage: the `cache_size` largest rows. -/
def reloadPlain (cacheSize : ℕ) (db : List (Detail α)) : List (Detail α) :=
  (sortDesc db).take cacheSize

/-- `_update_max_cache` of HybridPartitionedBoxStorage: scan the partitions in
order, taking up to the remaining quota of rows (ordered by descending
min_size) from each; a partition holds the rows whose key lies in
[start, end). -/
def reloadPartitionedAux (db : List (Detail α)) :
    List (α × α) → ℕ → List (Detail α)
  | [], _ => []
  | (lo, hi) :: rest, remaining =>
    if remaining = 0 then []
    else
      let rows := (sortDesc (db.filter fun d => decide (lo ≤ dkey d) && decide (dkey d < hi))).take remaining
      rows ++ reloadPartitionedAux db rest (remaining - rows.length)

/-- The partitioned reload entry point. -/
def reloadPartitioned (ranges : List (α × α)) (cacheSize : ℕ)
    (db : List (Detail α)) : List (Detail α) :=
  reloadPartitionedAux db ranges cacheSize

/-- `_update_caches`: flush `to_add` into the table, delete the rows whose
name is in `to_delete`, then refill `max_cache`. -/
def coordSync (reload : ℕ → List (Detail α) → List (Detail α))
    (s : CoordState α) : CoordState α :=
  let db1 := s.db ++ s.toAdd
  let names := s.toDelete.map (fun d => d.name)
  let db2 := db1.filter fun r => !(names.contains r.name)
  { s with db := db2, toAdd := [], toDelete := [],
           maxCache := reload s.cacheSize db2 }

/-- `add_box` of the hybrid storages. -/
def coordAdd (reload : ℕ → List (Detail α) → List (Detail α)) (d : Detail α)
    (s : CoordState α) : CoordState α :=
  let s' := {s with toAdd := memAdd d s.toAdd}
  if s'.toAdd.length > s'.cacheSize then coordSync reload s' else s'

/-- The comparator decision `_detail_comparator(A, M) >= 0` (take the
max-cache side): 0 when both are None, +inf when A is None, −inf when M is
None, else key(M) − key(A). -/
def cmpPrefersMax (a m : Option (Detail α)) : Bool :=
  match a, m with
  | none, none => true
  | none, some _ => true
  | some _, none => false
  | some x, some y => decide (dkey x ≤ dkey y)

/-- `get_max_box` of the hybrid storages. -/
def coordGetMaxBox (s : CoordState α) : Option (Detail α) :=
  let maxFromToAdd := s.toAdd.head?
  let maxFromMaxCache := s.maxCache.head?
  if cmpPrefersMax maxFromToAdd maxFromMaxCache then maxFromMaxCache
  else maxFromToAdd

/-- `pop_max_box` of the hybrid storages.  Popping the max-cache side records
the box for deletion and triggers a sync when the cache empties; popping an
empty max-cache raises IndexError (`self.max_cache.pop(0)` on an empty sorted
set).  The final catch-all branch is unreachable: the comparator prefers the
max-cache side whenever `to_add` is empty. -/
def coordPopMaxBox (reload : ℕ → List (Detail α) → List (Detail α))
    (s : CoordState α) : Except AlgoError (Detail α × CoordState α) :=
  if cmpPrefersMax s.toAdd.head? s.maxCache.head? then
    match s.maxCache with
    | [] => .error .indexErr
    | m :: rest =>
      let s' := {s with maxCache := rest, toDelete := s.toDelete ++ [m]}
      let s'' := if rest.isEmpty then coordSync reload s' else s'
      .ok (m, s'')
  else
    match s.toAdd with
    | [] => .error .indexErr
    | a :: rest => .ok (a, {s with toAdd := rest})

/-!  ## Operation sequences against a storage

To state the storage correctness property ("after any sequence of add/peek/pop
…") we execute a list of operations and track, alongside the implementation
state, the naive logically-present set: the rectangles added and not yet
popped. -/

/-- A storage operation (peeks are pure and need not appear in the history). -/
inductive SOp (α : Type) where
  | add (d : Detail α)
  | pop

/-- Adding to the logically-present set (a set: re-adding an already present
rectangle is absorbed). -/
def presAdd (d : Detail α) (present : List (Detail α)) : List (Detail α) :=
  if d ∈ present then present else present ++ [d]

/-- Execute operations against the in-memory storage, tracking the
logically-present set. -/
def memExec : List (Detail α) → List (Detail α) → List (SOp α) →
    List (Detail α) × List (Detail α)
  | store, present, [] => (store, present)
  | store, present, .add d :: ops => memExec (memAdd d store) (presAdd d present) ops
  | store, present, .pop :: ops =>
    match memPopMaxBox store with
    | (none, store') => memExec store' present ops
    | (some r, store') => memExec store' (present.erase r) ops

/-- Execute operations against a cached coordinator, tracking the
logically-present set.  A pop that raises leaves the state unchanged (the
exception is thrown before any mutation) and pops nothing. -/
def coordExec (reload : ℕ → List (Detail α) → List (Detail α)) :
    CoordState α → List (Detail α) → List (SOp α) →
    CoordState α × List (Detail α)
  | s, present, [] => (s, present)
  | s, present, .add d :: ops => coordExec reload (coordAdd reload d s) (presAdd d present) ops
  | s, present, .pop :: ops =>
    match coordPopMaxBox reload s with
    | .error _ => coordExec reload s present ops
    | .ok (r, s') => coordExec reload s' (present.erase r) ops

/-- The details added by a history of operations, in order. -/
def opsAdds : List (SOp α) → List (Detail α)
  | [] => []
  | .add d :: ops => d :: opsAdds ops
  | .pop :: ops => opsAdds ops

/-!  ## List and storage helper lemmas -/

theorem pyRemove_eq (x : Detail α) (l : List (Detail α)) :
    pyRemove x l = if x ∈ l then some (l.erase x) else none := by
  induction l with
  | nil => simp [pyRemove]
  | cons y ys ih =>
    simp only [pyRemove]
    by_cases hyx : y = x
    · subst hyx
      simp [List.erase_cons_head]
    · rw [if_neg hyx, ih]
      have hbeq : (y == x) = false := beq_false_of_ne hyx
      have hxy : x ≠ y := Ne.symm hyx
      by_cases hmem : x ∈ ys
      · rw [if_pos hmem, if_pos (List.mem_cons_of_mem y hmem), List.erase_cons, hbeq]
        rfl
      · have hnot : ¬ x ∈ y :: ys := by
          simp [List.mem_cons, hmem, hxy]
        rw [if_neg hmem, if_neg hnot]
        rfl

theorem areaSum_perm {l l' : List (Detail α)} (h : l.Perm l') : areaSum l = areaSum l' :=
  (h.map darea).sum_eq

theorem areaSum_append (l l' : List (Detail α)) :
    areaSum (l ++ l') = areaSum l + areaSum l' := by
  simp [areaSum]

theorem areaSum_erase {l : List (Detail α)} {x : Detail α} (h : x ∈ l) :
    areaSum (l.erase x) = areaSum l - darea x := by
  have hp := areaSum_perm (List.perm_cons_erase h)
  simp only [areaSum, List.map_cons, List.sum_cons] at hp ⊢
  linarith

/-- In a pairwise-separated list, every remaining element is separated from an
erased member. -/
theorem pairwise_sep_erase {pl : List (Detail α)} (h : pl.Pairwise Sep) {x : Detail α}
    (hx : x ∈ pl) : ∀ b ∈ pl.erase x, Sep b x := by
  induction pl with
  | nil => cases hx
  | cons y ys ih =>
    rw [List.pairwise_cons] at h
    by_cases hyx : y = x
    · subst hyx
      rw [List.erase_cons_head]
      intro b hb
      exact (h.1 b hb).symm'
    · have hbeq : (y == x) = false := beq_false_of_ne hyx
      rw [List.erase_cons, hbeq]
      have hxys : x ∈ ys := by
        rcases List.mem_cons.mp hx with h1 | h1
        · exact absurd h1.symm hyx
        · exact h1
      intro b hb
      rcases List.mem_cons.mp hb with rfl | hb
      · exact h.1 x hxys
      · exact ih h.2 hxys b hb

/-- Two distinct values in a pairwise-separated list are separated. -/
theorem pairwise_sep_of_mem {pl : List (Detail α)} (h : pl.Pairwise Sep) {a b : Detail α}
    (ha : a ∈ pl) (hb : b ∈ pl) (hab : a ≠ b) : Sep a b :=
  h.forall (fun _ _ hxy => hxy.symm') ha hb hab

theorem mem_memAdd {l : List (Detail α)} {d b : Detail α} :
    b ∈ memAdd d l ↔ b = d ∨ b ∈ l := by
  unfold memAdd
  by_cases hmem : d ∈ l
  · rw [if_pos hmem]
    constructor
    · exact Or.inr
    · rintro (rfl | h)
      · exact hmem
      · exact h
  · rw [if_neg hmem]
    exact mem_insertDesc

theorem nodup_memAdd {l : List (Detail α)} (h : l.Nodup) (d : Detail α) :
    (memAdd d l).Nodup := by
  unfold memAdd
  by_cases hmem : d ∈ l
  · rwa [if_pos hmem]
  · rw [if_neg hmem]
    exact ((insertDesc_perm d l).nodup_iff).mpr (List.nodup_cons.mpr ⟨hmem, h⟩)

theorem sortedDesc_memAdd {l : List (Detail α)} (h : SortedDesc l) (d : Detail α) :
    SortedDesc (memAdd d l) := by
  unfold memAdd
  by_cases hmem : d ∈ l
  · rwa [if_pos hmem]
  · rw [if_neg hmem]
    exact sortedDesc_insertDesc h d

/-!  ## The engine invariant

The inductive invariant coupling an engine state with the placement list and
the initial sheet.  It contains the three spec invariants I1-I3 in their
algebraic form together with the bookkeeping facts making `place_next`'s list
surgery well defined. -/

/-- Invariant of a running engine (with `update_placed_details` true). -/
def Inv (sheet : Detail α) (st : EngineState α) (pl : List (Detail α)) : Prop :=
  st.updatePlacedDetails = true ∧
  pl.Pairwise Sep ∧
  (∀ r ∈ pl, ProperW r ∧ Inside sheet r) ∧
  areaSum pl = darea sheet ∧
  (match st.lrp with
   | none => pl = [sheet] ∧ st.boxStorage = [] ∧ st.activeBox = none
   | some l => l ∈ pl ∧
       (l.detail_type = "lrp" ∨ (st.boxStorage = [] ∧ st.activeBox = none))) ∧
  (match st.activeBox with
   | none => True
   | some a => a ∈ pl ∧ a ∉ st.boxStorage ∧ a.detail_type ≠ "lrp") ∧
  (∀ b ∈ st.boxStorage, b ∈ pl ∧ b.detail_type ≠ "lrp") ∧
  st.boxStorage.Nodup

/-- Executable check of `Inv`. -/
def invCheck (sheet : Detail α) (st : EngineState α) (pl : List (Detail α)) : Bool :=
  decide (st.updatePlacedDetails = true) &&
  decide (pl.Pairwise Sep) &&
  decide (∀ r ∈ pl, ProperW r ∧ Inside sheet r) &&
  decide (areaSum pl = darea sheet) &&
  (match st.lrp with
   | none => decide (pl = [sheet] ∧ st.boxStorage = [] ∧ st.activeBox = none)
   | some l => decide (l ∈ pl ∧
       (l.detail_type = "lrp" ∨ (st.boxStorage = [] ∧ st.activeBox = none)))) &&
  (match st.activeBox with
   | none => true
   | some a => decide (a ∈ pl ∧ a ∉ st.boxStorage ∧ a.detail_type ≠ "lrp")) &&
  decide (∀ b ∈ st.boxStorage, b ∈ pl ∧ b.detail_type ≠ "lrp") &&
  decide st.boxStorage.Nodup

instance (sheet : Detail α) (st : EngineState α) (pl : List (Detail α)) :
    Decidable (Inv sheet st pl) :=
  decidable_of_iff (invCheck sheet st pl = true) (by
    unfold invCheck Inv
    rcases st.lrp with _ | l <;> rcases st.activeBox with _ | a <;>
      simp [Bool.and_eq_true, decide_eq_true_eq, and_assoc])

/-- The spec's placement-list invariants I1 (no two placements share an
interior point), I2 (containment in the sheet) and I3 (area conservation). -/
def PlacementInvariants (sheet : Detail α) (pl : List (Detail α)) : Prop :=
  pl.Pairwise NoSharedInterior ∧
  (∀ r ∈ pl, Inside sheet r) ∧
  areaSum pl = darea sheet

theorem placementInvariants_of_inv {sheet : Detail α} {st : EngineState α}
    {pl : List (Detail α)} (h : Inv sheet st pl) : PlacementInvariants sheet pl := by
  obtain ⟨-, hsep, hin, harea, -⟩ := h
  exact ⟨hsep.imp Sep.noSharedInterior, fun r hr => (hin r hr).2, harea⟩

end SlackPack

/-!  ## Detail generators (detail/detail_generator.py) and the slack gap

The generators and the sheet base size use π and real square roots, so they
are embedded over ℝ. -/

namespace SlackPack

variable {α : Type} [LinearOrderedField α]

/-- State of HarmonicSquareDetailGenerator. -/
structure HarmonicSquareGen where
  n0 : ℕ
  denominator : ℕ
  deriving DecidableEq, Repr

/-- `HarmonicSquareDetailGenerator(n0)`. -/
def HarmonicSquareGen.init (n0 : ℕ) : HarmonicSquareGen := ⟨n0, n0⟩

/-- `__next__`: emit (1/d, 1/d) and post-increment the denominator. -/
noncomputable def sqNext (g : HarmonicSquareGen) : (ℝ × ℝ) × HarmonicSquareGen :=
  ((1 / (g.denominator : ℝ), 1 / (g.denominator : ℝ)),
   {g with denominator := g.denominator + 1})

/-- `get_base_size` for squares: √(π²/6 − Σ_{i=1}^{n₀−1} (1/i)²), twice. -/
noncomputable def sqBaseSize (g : HarmonicSquareGen) : ℝ × ℝ :=
  let baseSize := Real.sqrt (Real.pi ^ 2 / 6 - ∑ i in Finset.Ico 1 g.n0, (1 / (i : ℝ)) ^ 2)
  (baseSize, baseSize)

/-- State of HarmonicRectangleDetailGenerator. -/
structure HarmonicRectGen where
  n0 : ℕ
  denominator : ℕ
  isWidthSmaller : Bool
  deriving DecidableEq, Repr

/-- `HarmonicRectangleDetailGenerator(n0, is_width_smaller)`. -/
def HarmonicRectGen.init (n0 : ℕ) (isWidthSmaller : Bool) : HarmonicRectGen :=
  ⟨n0, n0, isWidthSmaller⟩

/-- `__next__`: emit (1/(d+1), 1/d) or (1/d, 1/(d+1)) and post-increment d. -/
noncomputable def rectNext (g : HarmonicRectGen) : (ℝ × ℝ) × HarmonicRectGen :=
  (if g.isWidthSmaller then
     (1 / ((g.denominator : ℝ) + 1), 1 / (g.denominator : ℝ))
   else
     (1 / (g.denominator : ℝ), 1 / ((g.denominator : ℝ) + 1)),
   {g with denominator := g.denominator + 1})

/-- `get_base_size` for rectangles: (√(1/n₀), √(1/n₀)). -/
noncomputable def rectBaseSize (g : HarmonicRectGen) : ℝ × ℝ :=
  (Real.sqrt (1 / (g.n0 : ℝ)), Real.sqrt (1 / (g.n0 : ℝ)))

/-- The generator state after k calls to next. -/
def sqAfter (g : HarmonicSquareGen) : ℕ → HarmonicSquareGen
  | 0 => g
  | k + 1 => {(sqAfter g k) with denominator := (sqAfter g k).denominator + 1}

/-- The rectangle-generator state after k calls to next. -/
def rectAfter (g : HarmonicRectGen) : ℕ → HarmonicRectGen
  | 0 => g
  | k + 1 => {(rectAfter g k) with denominator := (rectAfter g k).denominator + 1}

/-- The slack gap `pow(1 / index, gamma)` of slack_pack_algorithm.py, over ℝ. -/
noncomputable def requiredGap (gamma : ℝ) (n : ℕ) : ℝ := (1 / (n : ℝ)) ^ gamma

/-- `_create_partition_ranges` of storage/hybrid_partitioned_box_storage.py:
`max_placed // boxes_in_partition + 1` ranges, range i spanning
[(1/(n₀+(i+1)·B))^γ, (1/(n₀+i·B))^γ), except that range 0's upper bound is 1
and the last range's lower bound is 0. -/
noncomputable def createPartitionRanges (n0 : ℕ) (gamma : ℝ)
    (maxPlaced boxesInPartition : ℕ) : List (ℝ × ℝ) :=
  let numberOfPartitions := maxPlaced / boxesInPartition + 1
  (List.range numberOfPartitions).map fun i =>
    let firstN := n0 + i * boxesInPartition
    let lastN := n0 + (i + 1) * boxesInPartition
    let minDetail : ℝ := if i = numberOfPartitions - 1 then 0 else (1 / (lastN : ℝ)) ^ gamma
    let maxDetail : ℝ := if i = 0 then 1 else (1 / (firstN : ℝ)) ^ gamma
    (minDetail, maxDetail)

/-!  ## Generator unfolding lemmas -/

theorem sqAfter_denominator (g : HarmonicSquareGen) (k : ℕ) :
    (sqAfter g k).denominator = g.denominator + k := by
  induction k with
  | zero => rfl
  | succ k ih => simp [sqAfter, ih]; ring

theorem sqAfter_n0 (g : HarmonicSquareGen) (k : ℕ) : (sqAfter g k).n0 = g.n0 := by
  induction k with
  | zero => rfl
  | succ k ih => simp [sqAfter, ih]

theorem rectAfter_denominator (g : HarmonicRectGen) (k : ℕ) :
    (rectAfter g k).denominator = g.denominator + k := by
  induction k with
  | zero => rfl
  | succ k ih => simp [rectAfter, ih]; ring

theorem rectAfter_n0 (g : HarmonicRectGen) (k : ℕ) : (rectAfter g k).n0 = g.n0 := by
  induction k with
  | zero => rfl
  | succ k ih => simp [rectAfter, ih]

theorem rectAfter_isWidthSmaller (g : HarmonicRectGen) (k : ℕ) :
    (rectAfter g k).isWidthSmaller = g.isWidthSmaller := by
  induction k with
  | zero => rfl
  | succ k ih => simp [rectAfter, ih]

/-!  ## Claim C9 -/

/-- C9: the k-th call to next() on HarmonicSquare(n₀) returns
(1/(n₀+k−1), 1/(n₀+k−1)); the k-th call on HarmonicRectangle(n₀, ws) returns
(1/(n₀+k), 1/(n₀+k−1)) when the width is the smaller side and the swapped pair
otherwise; and base_size() is pure: on both generators it returns its closed
form regardless of how many next() calls preceded it. -/
theorem generators_c9 (n0 k j : ℕ) (ws : Bool) (hn0 : 1 ≤ n0) (hk : 1 ≤ k) :
    (sqNext (sqAfter (HarmonicSquareGen.init n0) (k - 1))).1 =
      (1 / ((n0 + k - 1 : ℕ) : ℝ), 1 / ((n0 + k - 1 : ℕ) : ℝ)) ∧
    (rectNext (rectAfter (HarmonicRectGen.init n0 true) (k - 1))).1 =
      (1 / ((n0 + k : ℕ) : ℝ), 1 / ((n0 + k - 1 : ℕ) : ℝ)) ∧
    (rectNext (rectAfter (HarmonicRectGen.init n0 false) (k - 1))).1 =
      (1 / ((n0 + k - 1 : ℕ) : ℝ), 1 / ((n0 + k : ℕ) : ℝ)) ∧
    sqBaseSize (sqAfter (HarmonicSquareGen.init n0) j) =
      (Real.sqrt (Real.pi ^ 2 / 6 - ∑ i in Finset.Ico 1 n0, (1 / (i : ℝ)) ^ 2),
       Real.sqrt (Real.pi ^ 2 / 6 - ∑ i in Finset.Ico 1 n0, (1 / (i : ℝ)) ^ 2)) ∧
    rectBaseSize (rectAfter (HarmonicRectGen.init n0 ws) j) =
      (Real.sqrt (1 / (n0 : ℝ)), Real.sqrt (1 / (n0 : ℝ))) := by
  have hden : n0 + (k - 1) = n0 + k - 1 := by omega
  have hden1 : (n0 + (k - 1)) + 1 = n0 + k := by omega
  refine ⟨?_, ?_, ?_, ?_, ?_⟩
  · simp [sqNext, sqAfter_denominator, HarmonicSquareGen.init, hden]
  · simp only [rectNext, rectAfter_isWidthSmaller, HarmonicRectGen.init,
      rectAfter_denominator, if_true]
    rw [hden, show (((n0 + k - 1 : ℕ) : ℝ) + 1) = ((n0 + k : ℕ) : ℝ) by
      rw [← Nat.cast_add_one]; exact congrArg _ (by omega)]
  · simp only [rectNext, rectAfter_isWidthSmaller, HarmonicRectGen.init,
      rectAfter_denominator, Bool.false_eq_true, if_false]
    rw [hden, show (((n0 + k - 1 : ℕ) : ℝ) + 1) = ((n0 + k : ℕ) : ℝ) by
      rw [← Nat.cast_add_one]; exact congrArg _ (by omega)]
  · simp [sqBaseSize, sqAfter_n0, HarmonicSquareGen.init]
  · simp [rectBaseSize, rectAfter_n0, HarmonicRectGen.init]

/-- Witness for C9 at n₀ = 1, k = 1, j = 0, ws = true. -/
theorem generators_c9_witness :
    (1 ≤ 1 ∧ 1 ≤ 1) ∧
    ((sqNext (sqAfter (HarmonicSquareGen.init 1) (1 - 1))).1 =
      (1 / ((1 + 1 - 1 : ℕ) : ℝ), 1 / ((1 + 1 - 1 : ℕ) : ℝ)) ∧
    (rectNext (rectAfter (HarmonicRectGen.init 1 true) (1 - 1))).1 =
      (1 / ((1 + 1 : ℕ) : ℝ), 1 / ((1 + 1 - 1 : ℕ) : ℝ)) ∧
    (rectNext (rectAfter (HarmonicRectGen.init 1 false) (1 - 1))).1 =
      (1 / ((1 + 1 - 1 : ℕ) : ℝ), 1 / ((1 + 1 : ℕ) : ℝ)) ∧
    sqBaseSize (sqAfter (HarmonicSquareGen.init 1) 0) =
      (Real.sqrt (Real.pi ^ 2 / 6 - ∑ i in Finset.Ico (1 : ℕ) 1, (1 / (i : ℝ)) ^ 2),
       Real.sqrt (Real.pi ^ 2 / 6 - ∑ i in Finset.Ico (1 : ℕ) 1, (1 / (i : ℝ)) ^ 2)) ∧
    rectBaseSize (rectAfter (HarmonicRectGen.init 1 true) 0) =
      (Real.sqrt (1 / (1 : ℝ)), Real.sqrt (1 / (1 : ℝ)))) :=
  ⟨⟨le_refl 1, le_refl 1⟩, by
    have h := generators_c9 1 1 0 true (le_refl 1) (le_refl 1)
    simpa using h⟩

/-!  ## Claim C5 -/

/-- C5: placing a detail (w, h) into the active box ab with n the new
last_placed_index cuts ab into exactly three rectangles — when horizontal,
detail D{n} from ab.bl to (ab.bl.x+w, ab.bl.y+h), normal box B{n} from
(ab.bl.x, ab.bl.y+h) to (ab.bl.x+w, ab.tr.y), endpoint from (ab.bl.x+w,
ab.bl.y) to ab.tr; when vertical (dx = h, dy = w), detail from (ab.tr.x−dx,
ab.bl.y) to (ab.tr.x, ab.bl.y+dy), normal box from ab.bl to (ab.tr.x−dx,
ab.bl.y+dy), endpoint from (ab.bl.x, ab.bl.y+dy) to ab.tr.  The active box is
removed from the placements list, the three pieces are appended, the normal
box is added to storage and the endpoint becomes the new active box. -/
theorem place_cuts_c5 (d : α × α) (st : EngineState α) (pl : List (Detail α))
    (ab : Detail α) (hab : st.activeBox = some ab)
    (hupd : st.updatePlacedDetails = true) (hmem : ab ∈ pl) :
    (st.isActiveBoxHorizontal = true →
      placeDetailInActiveBox d st pl = .ok
        ({st with
            lastPlacedIndex := st.lastPlacedIndex + 1,
            activeBox := some
              { bottom_left := (ab.bottom_left.1 + d.1, ab.bottom_left.2),
                top_right := ab.top_right,
                name := "E" ++ toString st.endpointsPlaced,
                detail_type := getEndpointType st },
            boxStorage := memAdd
              { bottom_left := (ab.bottom_left.1, ab.bottom_left.2 + d.2),
                top_right := (ab.bottom_left.1 + d.1, ab.top_right.2),
                name := "B" ++ toString (st.lastPlacedIndex + 1),
                detail_type := getNormalBoxType st } st.boxStorage},
         pl.erase ab ++
           [{ bottom_left := ab.bottom_left,
              top_right := (ab.bottom_left.1 + d.1, ab.bottom_left.2 + d.2),
              name := "D" ++ toString (st.lastPlacedIndex + 1),
              detail_type := "detail" },
            { bottom_left := (ab.bottom_left.1, ab.bottom_left.2 + d.2),
              top_right := (ab.bottom_left.1 + d.1, ab.top_right.2),
              name := "B" ++ toString (st.lastPlacedIndex + 1),
              detail_type := getNormalBoxType st },
            { bottom_left := (ab.bottom_left.1 + d.1, ab.bottom_left.2),
              top_right := ab.top_right,
              name := "E" ++ toString st.endpointsPlaced,
              detail_type := getEndpointType st }])) ∧
    (st.isActiveBoxHorizontal = false →
      placeDetailInActiveBox d st pl = .ok
        ({st with
            lastPlacedIndex := st.lastPlacedIndex + 1,
            activeBox := some
              { bottom_left := (ab.bottom_left.1, ab.bottom_left.2 + d.1),
                top_right := ab.top_right,
                name := "E" ++ toString st.endpointsPlaced,
                detail_type := getEndpointType st },
            boxStorage := memAdd
              { bottom_left := ab.bottom_left,
                top_right := (ab.top_right.1 - d.2, ab.bottom_left.2 + d.1),
                name := "B" ++ toString (st.lastPlacedIndex + 1),
                detail_type := getNormalBoxType st } st.boxStorage},
         pl.erase ab ++
           [{ bottom_left := (ab.top_right.1 - d.2, ab.bottom_left.2),
              top_right := (ab.top_right.1, ab.bottom_left.2 + d.1),
              name := "D" ++ toString (st.lastPlacedIndex + 1),
              detail_type := "detail" },
            { bottom_left := ab.bottom_left,
              top_right := (ab.top_right.1 - d.2, ab.bottom_left.2 + d.1),
              name := "B" ++ toString (st.lastPlacedIndex + 1),
              detail_type := getNormalBoxType st },
            { bottom_left := (ab.bottom_left.1, ab.bottom_left.2 + d.1),
              top_right := ab.top_right,
              name := "E" ++ toString st.endpointsPlaced,
              detail_type := getEndpointType st }])) := by
  constructor <;> intro hor <;>
    simp only [placeDetailInActiveBox, hab, hupd, hor, pyRemove_eq, if_pos hmem,
      if_true, Bool.false_eq_true, if_false] <;> rfl

/-- The active box of the C5 scenario over ℚ. -/
def c5Box : Detail ℚ :=
  { bottom_left := (0, 0), top_right := (4, 2), name := "E2",
    detail_type := "endpoint_1" }

/-- An engine state over ℚ whose active box is `c5Box` (horizontal,
last-placed index 3, endpoint counter 2, formed from an endpoint). -/
def c5State : EngineState ℚ :=
  { n0 := 1, maxPlaced := 5, updatePlacedDetails := true, boxStorage := [],
    lrp := some { bottom_left := (0, 2), top_right := (4, 4), name := "LRP",
                  detail_type := "lrp" },
    activeBox := some c5Box, activeBoxFirstDetailIndex := 2,
    isActiveBoxHorizontal := true, lastPlacedIndex := 3, endpointsPlaced := 2,
    activeBoxFrom := some "endpoint_1" }

/-- Witness for C5: placing detail (1, 1/2) into the 4×2 horizontal active
box. -/
theorem place_cuts_c5_witness :
    (c5State.activeBox = some c5Box ∧ c5State.updatePlacedDetails = true ∧
     c5Box ∈ [c5Box] ∧ c5State.isActiveBoxHorizontal = true) ∧
    placeDetailInActiveBox ((1 : ℚ), 1 / 2) c5State [c5Box] = .ok
      ({c5State with
          lastPlacedIndex := 4,
          activeBox := some
            { bottom_left := (1, 0), top_right := (4, 2), name := "E2",
              detail_type := "endpoint_1" },
          boxStorage :=
            [{ bottom_left := (0, 1 / 2), top_right := (1, 2), name := "B4",
               detail_type := "normal_box_2" }]},
       [{ bottom_left := (0, 0), top_right := (1, 1 / 2), name := "D4",
          detail_type := "detail" },
        { bottom_left := (0, 1 / 2), top_right := (1, 2), name := "B4",
          detail_type := "normal_box_2" },
        { bottom_left := (1, 0), top_right := (4, 2), name := "E2",
          detail_type := "endpoint_1" }]) :=
  ⟨⟨rfl, rfl, by decide, rfl⟩,
   ((place_cuts_c5 ((1 : ℚ), 1 / 2) c5State [c5Box] c5Box rfl rfl (by decide)).1 rfl).trans
     (by
       norm_num [c5State, c5Box, memAdd, insertDesc, getNormalBoxType,
         getEndpointType, Detail.mk.injEq, EngineState.mk.injEq]
       decide)⟩

/-!  ## Invariant preservation machinery for claims C3 and C4 -/

/-- Replacing a member of a well-formed placement list by pieces of itself
preserves separation, containment and the area sum. -/
theorem inv_surgery {sheet parent : Detail α} {pl pieces : List (Detail α)}
    (hsep : pl.Pairwise Sep)
    (hprop : ∀ r ∈ pl, ProperW r ∧ Inside sheet r)
    (harea : areaSum pl = darea sheet)
    (hparent : parent ∈ pl)
    (hin : ∀ p ∈ pieces, ProperW p ∧ Inside parent p)
    (hpw : pieces.Pairwise Sep)
    (haeq : areaSum pieces = darea parent) :
    (pl.erase parent ++ pieces).Pairwise Sep ∧
    (∀ r ∈ pl.erase parent ++ pieces, ProperW r ∧ Inside sheet r) ∧
    areaSum (pl.erase parent ++ pieces) = darea sheet := by
  refine ⟨?_, ?_, ?_⟩
  · rw [List.pairwise_append]
    refine ⟨hsep.sublist (List.erase_sublist parent pl), hpw, ?_⟩
    intro x hx p hp
    exact (pairwise_sep_erase hsep hparent x hx).of_inside (hin p hp).2
  · intro r hr
    rcases List.mem_append.mp hr with hr | hr
    · exact hprop r (List.mem_of_mem_erase hr)
    · exact ⟨(hin r hr).1, Inside.trans (hprop parent hparent).2 (hin r hr).2⟩
  · rw [areaSum_append, areaSum_erase hparent, harea, haeq]
    ring

/-- The first sub-procedure succeeds from any invariant state and preserves
the invariant. -/
theorem checkIfLrpNone_inv {sheet : Detail α} {st : EngineState α}
    {pl : List (Detail α)} (hInv : Inv sheet st pl) :
    ∃ st0, checkIfLrpNone st pl = .ok st0 ∧ Inv sheet st0 pl := by
  obtain ⟨n0, mp, upd, bs, lrp, ab, fi, hor, lp, ep, abf⟩ := st
  cases lrp with
  | some l => exact ⟨_, rfl, hInv⟩
  | none =>
    unfold Inv at hInv
    dsimp only at hInv
    obtain ⟨hupd, hsep, hprop, harea, ⟨hpl, hbs, habn⟩, -, hstore, hnodup⟩ := hInv
    subst hpl hbs habn
    refine ⟨_, rfl, ?_⟩
    unfold Inv
    dsimp only
    exact ⟨hupd, hsep, hprop, harea, ⟨by simp, Or.inr ⟨rfl, rfl⟩⟩, trivial,
      hstore, hnodup⟩

/-- The retirement sub-procedure preserves the invariant. -/
theorem checkActiveBoxSize_inv {sheet : Detail α} {st : EngineState α}
    {pl : List (Detail α)} (gap : ℕ → α) (d : α × α) (hInv : Inv sheet st pl) :
    Inv sheet (checkActiveBoxSize gap d st) pl := by
  obtain ⟨n0, mp, upd, bs, lrp, ab, fi, hor, lp, ep, abf⟩ := st
  cases ab with
  | none => exact hInv
  | some a =>
    unfold checkActiveBoxSize
    dsimp only
    by_cases hc : (hor = true ∧ d.1 + gap fi > a.width) ∨
        (hor = false ∧ d.1 + gap fi > a.height)
    · rw [if_pos hc]
      unfold Inv at hInv ⊢
      dsimp only at hInv ⊢
      obtain ⟨hupd, hsep, hprop, harea, hlrp, ⟨habpl, habs, habt⟩, hstore, hnodup⟩ :=
        hInv
      refine ⟨hupd, hsep, hprop, harea, ?_, trivial, ?_, nodup_memAdd hnodup a⟩
      · cases lrp with
        | none => exact absurd hlrp.2.2 (by simp)
        | some l =>
          obtain ⟨hlpl, hlty⟩ := hlrp
          refine ⟨hlpl, ?_⟩
          rcases hlty with h | h
          · exact Or.inl h
          · exact absurd h.2 (by simp)
      · intro b hb
        rcases mem_memAdd.mp hb with rfl | hb
        · exact ⟨habpl, habt⟩
        · exact hstore b hb
    · rw [if_neg hc]
      exact hInv

theorem getNormalBoxType_ne_lrp (st : EngineState α) : getNormalBoxType st ≠ "lrp" := by
  unfold getNormalBoxType
  split_ifs <;> decide

theorem getEndpointType_ne_lrp (st : EngineState α) : getEndpointType st ≠ "lrp" := by
  unfold getEndpointType
  split_ifs <;> decide

theorem getEndpointType_ne_normal (st : EngineState α) :
    getEndpointType st ≠ getNormalBoxType st := by
  unfold getEndpointType getNormalBoxType
  split_ifs <;> decide

/-- The success equation of `_place_detail_in_active_box`. -/
theorem placeDetail_ok (d : α × α) (st : EngineState α) (pl : List (Detail α))
    (ab : Detail α) (hab : st.activeBox = some ab)
    (hupd : st.updatePlacedDetails = true) (hmem : ab ∈ pl) :
    placeDetailInActiveBox d st pl = .ok
      ({st with
          lastPlacedIndex := st.lastPlacedIndex + 1,
          activeBox := some
            { bottom_left :=
                if st.isActiveBoxHorizontal then
                  (ab.bottom_left.1 + d.1, ab.bottom_left.2)
                else (ab.bottom_left.1, ab.bottom_left.2 + d.1),
              top_right := ab.top_right,
              name := "E" ++ toString st.endpointsPlaced,
              detail_type := getEndpointType st },
          boxStorage := memAdd
            { bottom_left :=
                if st.isActiveBoxHorizontal then
                  (ab.bottom_left.1, ab.bottom_left.2 + d.2)
                else ab.bottom_left,
              top_right :=
                if st.isActiveBoxHorizontal then
                  (ab.bottom_left.1 + d.1, ab.top_right.2)
                else (ab.top_right.1 - d.2, ab.bottom_left.2 + d.1),
              name := "B" ++ toString (st.lastPlacedIndex + 1),
              detail_type := getNormalBoxType st } st.boxStorage},
       pl.erase ab ++
         [{ bottom_left :=
              if st.isActiveBoxHorizontal then ab.bottom_left
              else (ab.top_right.1 - d.2, ab.bottom_left.2),
            top_right :=
              if st.isActiveBoxHorizontal then
                (ab.bottom_left.1 + d.1, ab.bottom_left.2 + d.2)
              else (ab.top_right.1, ab.bottom_left.2 + d.1),
            name := "D" ++ toString (st.lastPlacedIndex + 1),
            detail_type := "detail" },
          { bottom_left :=
              if st.isActiveBoxHorizontal then
                (ab.bottom_left.1, ab.bottom_left.2 + d.2)
              else ab.bottom_left,
            top_right :=
              if st.isActiveBoxHorizontal then
                (ab.bottom_left.1 + d.1, ab.top_right.2)
              else (ab.top_right.1 - d.2, ab.bottom_left.2 + d.1),
            name := "B" ++ toString (st.lastPlacedIndex + 1),
            detail_type := getNormalBoxType st },
          { bottom_left :=
              if st.isActiveBoxHorizontal then
                (ab.bottom_left.1 + d.1, ab.bottom_left.2)
              else (ab.bottom_left.1, ab.bottom_left.2 + d.1),
            top_right := ab.top_right,
            name := "E" ++ toString st.endpointsPlaced,
            detail_type := getEndpointType st }]) := by
  simp only [placeDetailInActiveBox, hab, hupd, pyRemove_eq, if_pos hmem, if_true]

/-- The placement sub-procedure preserves the invariant when the detail fits
in the active box: along the major axis with the slack gap to spare, and
within the minor axis. -/
theorem placeDetailInActiveBox_inv {sheet : Detail α} {st : EngineState α}
    {pl : List (Detail α)} {d : α × α} {ab : Detail α} {gw : α}
    {r : EngineState α × List (Detail α)}
    (hInv : Inv sheet st pl) (hab : st.activeBox = some ab)
    (hgw : 0 < gw) (hd1 : 0 < d.1) (hd2 : 0 < d.2)
    (hfit : if st.isActiveBoxHorizontal then
        d.1 + gw ≤ ab.width ∧ d.2 ≤ ab.height
      else d.1 + gw ≤ ab.height ∧ d.2 ≤ ab.width)
    (h : placeDetailInActiveBox d st pl = .ok r) :
    Inv sheet r.1 r.2 := by
  have hupd : st.updatePlacedDetails = true := hInv.1
  have habpl : ab ∈ pl := by
    have h2 := hInv.2.2.2.2.2.1
    rw [hab] at h2
    exact h2.1
  rw [placeDetail_ok d st pl ab hab hupd habpl] at h
  obtain ⟨n0, mp, upd, bs, lrp, ab', fi, hor, lp, ep, abf⟩ := st
  dsimp only at hab
  subst hab
  unfold Inv at hInv
  dsimp only at hInv
  obtain ⟨hu, hsep, hprop, harea, hlrp, ⟨-, habs, habt⟩, hstore, hnodup⟩ := hInv
  dsimp only at hupd
  subst hupd
  cases h
  unfold Detail.width Detail.height at hfit
  have hlrp' : ∀ l, lrp = some l →
      l ∈ pl.erase ab ∧ l.detail_type = "lrp" := by
    intro l hl
    subst hl
    rcases hlrp with ⟨hlpl, hlty | hlty⟩
    · have hne : l ≠ ab := fun he => habt (he ▸ hlty)
      exact ⟨(List.mem_erase_of_ne hne).mpr hlpl, hlty⟩
    · exact absurd hlty.2 (by simp)
  have hbs' : ∀ b ∈ bs, b ∈ pl.erase ab ∧ b.detail_type ≠ "lrp" := by
    intro b hb
    have hbb := hstore b hb
    have hne : b ≠ ab := fun he => habs (he ▸ hb)
    exact ⟨(List.mem_erase_of_ne hne).mpr hbb.1, hbb.2⟩
  have hepn_not_bs : ∀ epn : Detail α, ProperS epn → Inside ab epn →
      epn ∉ bs := by
    intro epn hps hin hmem
    by_cases heab : epn = ab
    · exact habs (heab ▸ hmem)
    · exact not_sep_self_of_inside hps hin
        (pairwise_sep_of_mem hsep (hstore epn hmem).1 habpl heab)
  cases hor with
  | true =>
    rw [if_pos rfl] at hfit
    obtain ⟨hf1, hf2⟩ := hfit
    simp only [eq_self_iff_true, if_true]
    have hsurg := @inv_surgery α _ sheet ab pl [
        { bottom_left := ab.bottom_left,
          top_right := (ab.bottom_left.1 + d.1, ab.bottom_left.2 + d.2),
          name := "D" ++ toString (lp + 1), detail_type := "detail" },
        { bottom_left := (ab.bottom_left.1, ab.bottom_left.2 + d.2),
          top_right := (ab.bottom_left.1 + d.1, ab.top_right.2),
          name := "B" ++ toString (lp + 1),
          detail_type := getNormalBoxType ⟨n0, mp, true, bs, lrp, some ab, fi, true, lp, ep, abf⟩ },
        { bottom_left := (ab.bottom_left.1 + d.1, ab.bottom_left.2),
          top_right := ab.top_right,
          name := "E" ++ toString ep,
          detail_type := getEndpointType ⟨n0, mp, true, bs, lrp, some ab, fi, true, lp, ep, abf⟩ }]
      hsep hprop harea habpl ?_ ?_ ?_
    · unfold Inv
      dsimp only
      refine ⟨rfl, hsurg.1, hsurg.2.1, hsurg.2.2, ?_, ?_, ?_,
        nodup_memAdd hnodup _⟩
      · cases lrp with
        | none => exact absurd hlrp.2.2 (by simp)
        | some l =>
          obtain ⟨hl1, hl2⟩ := hlrp' l rfl
          exact ⟨List.mem_append_left _ hl1, Or.inl hl2⟩
      · refine ⟨List.mem_append_right _ (by simp), ?_, getEndpointType_ne_lrp _⟩
        intro hmem
        rcases mem_memAdd.mp hmem with heq | hmem
        · exact getEndpointType_ne_normal _ (congrArg Detail.detail_type heq)
        · refine hepn_not_bs _ ⟨?_, ?_⟩ ⟨?_, ?_, ?_, ?_⟩ hmem <;>
            dsimp only <;> linarith
      · intro b hb
        rcases mem_memAdd.mp hb with rfl | hb
        · exact ⟨List.mem_append_right _ (by simp), getNormalBoxType_ne_lrp _⟩
        · obtain ⟨hb1, hb2⟩ := hbs' b hb
          exact ⟨List.mem_append_left _ hb1, hb2⟩
    · intro p hp
      rcases List.mem_cons.mp hp with rfl | hp
      · exact ⟨⟨by dsimp only; linarith, by dsimp only; linarith⟩,
          by dsimp only; linarith, by dsimp only; linarith,
          by dsimp only; linarith, by dsimp only; linarith⟩
      rcases List.mem_cons.mp hp with rfl | hp
      · exact ⟨⟨by dsimp only; linarith, by dsimp only; linarith⟩,
          by dsimp only; linarith, by dsimp only; linarith,
          by dsimp only; linarith, by dsimp only; linarith⟩
      rcases List.mem_cons.mp hp with rfl | hp
      · exact ⟨⟨by dsimp only; linarith, by dsimp only; linarith⟩,
          by dsimp only; linarith, by dsimp only; linarith,
          by dsimp only; linarith, by dsimp only; linarith⟩
      · exact absurd hp (List.not_mem_nil p)
    · refine List.Pairwise.cons ?_ (List.Pairwise.cons ?_ ?_)
      · intro b hb
        rcases List.mem_cons.mp hb with rfl | hb
        · exact Or.inr (Or.inr (Or.inl (by dsimp only; linarith)))
        rcases List.mem_cons.mp hb with rfl | hb
        · exact Or.inl (by dsimp only; linarith)
        · exact absurd hb (List.not_mem_nil b)
      · intro b hb
        rcases List.mem_cons.mp hb with rfl | hb
        · exact Or.inl (by dsimp only; linarith)
        · exact absurd hb (List.not_mem_nil b)
      · exact List.pairwise_singleton _ _
    · simp only [areaSum, darea, Detail.width, Detail.height, List.map_cons,
        List.map_nil, List.sum_cons, List.sum_nil]
      ring
  | false =>
    rw [if_neg (by simp)] at hfit
    obtain ⟨hf1, hf2⟩ := hfit
    simp only [Bool.false_eq_true, if_false]
    have hsurg := @inv_surgery α _ sheet ab pl [
        { bottom_left := (ab.top_right.1 - d.2, ab.bottom_left.2),
          top_right := (ab.top_right.1, ab.bottom_left.2 + d.1),
          name := "D" ++ toString (lp + 1), detail_type := "detail" },
        { bottom_left := ab.bottom_left,
          top_right := (ab.top_right.1 - d.2, ab.bottom_left.2 + d.1),
          name := "B" ++ toString (lp + 1),
          detail_type := getNormalBoxType ⟨n0, mp, true, bs, lrp, some ab, fi, false, lp, ep, abf⟩ },
        { bottom_left := (ab.bottom_left.1, ab.bottom_left.2 + d.1),
          top_right := ab.top_right,
          name := "E" ++ toString ep,
          detail_type := getEndpointType ⟨n0, mp, true, bs, lrp, some ab, fi, false, lp, ep, abf⟩ }]
      hsep hprop harea habpl ?_ ?_ ?_
    · unfold Inv
      dsimp only
      refine ⟨rfl, hsurg.1, hsurg.2.1, hsurg.2.2, ?_, ?_, ?_,
        nodup_memAdd hnodup _⟩
      · cases lrp with
        | none => exact absurd hlrp.2.2 (by simp)
        | some l =>
          obtain ⟨hl1, hl2⟩ := hlrp' l rfl
          exact ⟨List.mem_append_left _ hl1, Or.inl hl2⟩
      · refine ⟨List.mem_append_right _ (by simp), ?_, getEndpointType_ne_lrp _⟩
        intro hmem
        rcases mem_memAdd.mp hmem with heq | hmem
        · exact getEndpointType_ne_normal _ (congrArg Detail.detail_type heq)
        · refine hepn_not_bs _ ⟨?_, ?_⟩ ⟨?_, ?_, ?_, ?_⟩ hmem <;>
            dsimp only <;> linarith
      · intro b hb
        rcases mem_memAdd.mp hb with rfl | hb
        · exact ⟨List.mem_append_right _ (by simp), getNormalBoxType_ne_lrp _⟩
        · obtain ⟨hb1, hb2⟩ := hbs' b hb
          exact ⟨List.mem_append_left _ hb1, hb2⟩
    · intro p hp
      rcases List.mem_cons.mp hp with rfl | hp
      · exact ⟨⟨by dsimp only; linarith, by dsimp only; linarith⟩,
          by dsimp only; linarith, by dsimp only; linarith,
          by dsimp only; linarith, by dsimp only; linarith⟩
      rcases List.mem_cons.mp hp with rfl | hp
      · exact ⟨⟨by dsimp only; linarith, by dsimp only; linarith⟩,
          by dsimp only; linarith, by dsimp only; linarith,
          by dsimp only; linarith, by dsimp only; linarith⟩
      rcases List.mem_cons.mp hp with rfl | hp
      · exact ⟨⟨by dsimp only; linarith, by dsimp only; linarith⟩,
          by dsimp only; linarith, by dsimp only; linarith,
          by dsimp only; linarith, by dsimp only; linarith⟩
      · exact absurd hp (List.not_mem_nil p)
    · refine List.Pairwise.cons ?_ (List.Pairwise.cons ?_ ?_)
      · intro b hb
        rcases List.mem_cons.mp hb with rfl | hb
        · exact Or.inr (Or.inl (by dsimp only; linarith))
        rcases List.mem_cons.mp hb with rfl | hb
        · exact Or.inr (Or.inr (Or.inl (by dsimp only; linarith)))
        · exact absurd hb (List.not_mem_nil b)
      · intro b hb
        rcases List.mem_cons.mp hb with rfl | hb
        · exact Or.inr (Or.inr (Or.inl (by dsimp only; linarith)))
        · exact absurd hb (List.not_mem_nil b)
      · exact List.pairwise_singleton _ _
    · simp only [areaSum, darea, Detail.width, Detail.height, List.map_cons,
        List.map_nil, List.sum_cons, List.sum_nil]
      ring

/-- The invariant does not mention `activeBoxFirstDetailIndex`, so updating
that field preserves it. -/
theorem inv_set_fi {sheet : Detail α} {st : EngineState α}
    {pl : List (Detail α)} (j : ℕ) (h : Inv sheet st pl) :
    Inv sheet {st with activeBoxFirstDetailIndex := j} pl := by
  obtain ⟨n0, mp, upd, bs, lrp, ab, fi, hor, lp, ep, abf⟩ := st
  exact h

/-- The stripe-cutting sub-procedure preserves the invariant. -/
theorem cutNewStrip_inv {sheet : Detail α} {st : EngineState α}
    {pl : List (Detail α)} {d : α × α} {gap : ℕ → α}
    {r : EngineState α × List (Detail α)}
    (hInv : Inv sheet st pl) (hg : 0 < gap (st.lastPlacedIndex + 1))
    (hd1 : 0 < d.1) (hd2 : 0 < d.2) (habn : st.activeBox = none)
    (h : cutNewStrip gap d st pl = .ok r) :
    Inv sheet r.1 r.2 := by
  obtain ⟨n0, mp, upd, bs, lrp, ab, fi, hor, lp, ep, abf⟩ := st
  dsimp only at habn hg
  subst habn
  cases lrp with
  | none => cases h
  | some l =>
    unfold cutNewStrip at h
    dsimp only at h
    by_cases hpre : d.2 + gap (lp + 1) > max l.width l.height ∨
        d.1 + gap (lp + 1) > min l.width l.height
    · simp only [if_pos hpre] at h
      cases h
    · simp only [if_neg hpre] at h
      push_neg at hpre
      obtain ⟨hpre1, hpre2⟩ := hpre
      unfold Inv at hInv
      dsimp only at hInv
      obtain ⟨hu, hsep, hprop, harea, ⟨hlpl, hlty⟩, -, hstore, hnodup⟩ := hInv
      subst hu
      rw [pyRemove_eq, if_pos hlpl] at h
      have hlty' : ∀ b ∈ bs, b ≠ l := by
        intro b hb
        rcases hlty with ht | ht
        · exact fun he => (hstore b hb).2 (he ▸ ht)
        · rw [ht.1] at hb
          cases hb
      have hbs' : ∀ b ∈ bs, b ∈ pl.erase l ∧ b.detail_type ≠ "lrp" := by
        intro b hb
        exact ⟨(List.mem_erase_of_ne (hlty' b hb)).mpr (hstore b hb).1,
          (hstore b hb).2⟩
      cases h
      by_cases hlw : l.width ≤ l.height
      · rw [max_eq_right hlw] at hpre1
        rw [min_eq_left hlw] at hpre2
        unfold Detail.height at hpre1
        unfold Detail.width at hpre2
        simp only [if_pos hlw]
        have hsurg := @inv_surgery α _ sheet l pl [
            { bottom_left := l.bottom_left,
              top_right := (l.top_right.1, l.bottom_left.2 + d.2 + gap (lp + 1)),
              name := "E" ++ toString ep, detail_type := "endpoint_1" },
            { bottom_left := (l.bottom_left.1, l.bottom_left.2 + d.2 + gap (lp + 1)),
              top_right := l.top_right,
              name := "LRP", detail_type := "lrp" }]
          hsep hprop harea hlpl ?_ ?_ ?_
        · unfold Inv
          dsimp only
          refine ⟨rfl, hsurg.1, hsurg.2.1, hsurg.2.2, ?_, ?_, ?_, hnodup⟩
          · exact ⟨List.mem_append_right _ (by simp), Or.inl rfl⟩
          · refine ⟨List.mem_append_right _ (by simp), ?_, by decide⟩
            intro hmem
            refine not_sep_self_of_inside ⟨?_, ?_⟩ ⟨?_, ?_, ?_, ?_⟩
              (pairwise_sep_of_mem hsep (hstore _ hmem).1 hlpl (hlty' _ hmem)) <;>
              dsimp only <;> linarith
          · intro b hb
            obtain ⟨hb1, hb2⟩ := hbs' b hb
            exact ⟨List.mem_append_left _ hb1, hb2⟩
        · intro p hp
          rcases List.mem_cons.mp hp with rfl | hp
          · exact ⟨⟨by dsimp only; linarith, by dsimp only; linarith⟩,
              by dsimp only; linarith, by dsimp only; linarith,
              by dsimp only; linarith, by dsimp only; linarith⟩
          rcases List.mem_cons.mp hp with rfl | hp
          · exact ⟨⟨by dsimp only; linarith, by dsimp only; linarith⟩,
              by dsimp only; linarith, by dsimp only; linarith,
              by dsimp only; linarith, by dsimp only; linarith⟩
          · exact absurd hp (List.not_mem_nil p)
        · refine List.Pairwise.cons ?_ (List.pairwise_singleton _ _)
          intro b hb
          rcases List.mem_cons.mp hb with rfl | hb
          · exact Or.inr (Or.inr (Or.inl (by dsimp only; linarith)))
          · exact absurd hb (List.not_mem_nil b)
        · simp only [areaSum, darea, Detail.width, Detail.height, List.map_cons,
            List.map_nil, List.sum_cons, List.sum_nil]
          ring
      · rw [max_eq_left (le_of_not_le hlw)] at hpre1
        rw [min_eq_right (le_of_not_le hlw)] at hpre2
        unfold Detail.width at hpre1
        unfold Detail.height at hpre2
        simp only [if_neg hlw]
        have hsurg := @inv_surgery α _ sheet l pl [
            { bottom_left := (l.top_right.1 - d.2 - gap (lp + 1), l.bottom_left.2),
              top_right := l.top_right,
              name := "E" ++ toString ep, detail_type := "endpoint_1" },
            { bottom_left := l.bottom_left,
              top_right := (l.top_right.1 - d.2 - gap (lp + 1), l.top_right.2),
              name := "LRP", detail_type := "lrp" }]
          hsep hprop harea hlpl ?_ ?_ ?_
        · unfold Inv
          dsimp only
          refine ⟨rfl, hsurg.1, hsurg.2.1, hsurg.2.2, ?_, ?_, ?_, hnodup⟩
          · exact ⟨List.mem_append_right _ (by simp), Or.inl rfl⟩
          · refine ⟨List.mem_append_right _ (by simp), ?_, by decide⟩
            intro hmem
            refine not_sep_self_of_inside ⟨?_, ?_⟩ ⟨?_, ?_, ?_, ?_⟩
              (pairwise_sep_of_mem hsep (hstore _ hmem).1 hlpl (hlty' _ hmem)) <;>
              dsimp only <;> linarith
          · intro b hb
            obtain ⟨hb1, hb2⟩ := hbs' b hb
            exact ⟨List.mem_append_left _ hb1, hb2⟩
        · intro p hp
          rcases List.mem_cons.mp hp with rfl | hp
          · exact ⟨⟨by dsimp only; linarith, by dsimp only; linarith⟩,
              by dsimp only; linarith, by dsimp only; linarith,
              by dsimp only; linarith, by dsimp only; linarith⟩
          rcases List.mem_cons.mp hp with rfl | hp
          · exact ⟨⟨by dsimp only; linarith, by dsimp only; linarith⟩,
              by dsimp only; linarith, by dsimp only; linarith,
              by dsimp only; linarith, by dsimp only; linarith⟩
          · exact absurd hp (List.not_mem_nil p)
        · refine List.Pairwise.cons ?_ (List.pairwise_singleton _ _)
          intro b hb
          rcases List.mem_cons.mp hb with rfl | hb
          · exact Or.inr (Or.inl (by dsimp only; linarith))
          · exact absurd hb (List.not_mem_nil b)
        · simp only [areaSum, darea, Detail.width, Detail.height, List.map_cons,
            List.map_nil, List.sum_cons, List.sum_nil]
          ring

/-- Choosing a new active box preserves the invariant. -/
theorem chooseActiveBox_inv {sheet : Detail α} {st : EngineState α}
    {pl : List (Detail α)} {d : α × α} {gap : ℕ → α}
    {r : EngineState α × List (Detail α)}
    (hInv : Inv sheet st pl) (hg : 0 < gap (st.lastPlacedIndex + 1))
    (hd1 : 0 < d.1) (hd2 : 0 < d.2)
    (h : chooseActiveBox gap d st pl = .ok r) :
    Inv sheet r.1 r.2 := by
  obtain ⟨n0, mp, upd, bs, lrp, ab, fi, hor, lp, ep, abf⟩ := st
  cases ab with
  | some a =>
    cases h
    exact hInv
  | none =>
    dsimp only [chooseActiveBox] at h
    split_ifs at h with hfit
    · cases bs with
      | nil =>
        exfalso
        dsimp only [memGetMaxBox] at hfit
        simp only [List.head?_nil] at hfit
        dsimp only at hg
        linarith
      | cons b rest =>
        dsimp only [chooseActiveBoxFromBox, memPopMaxBox, Except.map] at h
        cases h
        unfold Inv at hInv ⊢
        dsimp only at hInv ⊢
        obtain ⟨hu, hsep, hprop, harea, hlrp, -, hstore, hnodup⟩ := hInv
        have hb := hstore b (List.mem_cons_self b rest)
        refine ⟨hu, hsep, hprop, harea, ?_, ⟨hb.1, (List.nodup_cons.mp hnodup).1, hb.2⟩,
          ?_, (List.nodup_cons.mp hnodup).2⟩
        · cases lrp with
          | none => exact absurd hlrp.2.1 (by simp)
          | some l =>
            obtain ⟨hl1, hl2⟩ := hlrp
            refine ⟨hl1, ?_⟩
            rcases hl2 with h2 | h2
            · exact Or.inl h2
            · cases h2.1
        · intro x hx
          exact hstore x (List.mem_cons_of_mem b hx)
    · exact cutNewStrip_inv (inv_set_fi (lp + 1) hInv) hg hd1 hd2 rfl h

/-!  ## Claim C8 -/

/-- `place_next` as an explicit pipeline of the four sub-procedures. -/
theorem placeNext_def (gap : ℕ → α) (d : α × α) (st : EngineState α)
    (pl : List (Detail α)) :
    placeNext gap d st pl =
      (checkIfLrpNone st pl).bind fun st0 =>
        (chooseActiveBox gap d (checkActiveBoxSize gap d st0) pl).bind fun r =>
          placeDetailInActiveBox d r.1 r.2 := rfl

theorem checkIfLrpNone_update (b : Bool) (st : EngineState α) (pl : List (Detail α)) :
    checkIfLrpNone {st with updatePlacedDetails := b} pl =
      (checkIfLrpNone st pl).map fun s => {s with updatePlacedDetails := b} := by
  obtain ⟨n0, mp, upd, bs, lrp, ab, fi, hor, lp, ep, abf⟩ := st
  cases lrp <;> cases pl <;> rfl

theorem checkActiveBoxSize_update (b : Bool) (gap : ℕ → α) (d : α × α)
    (st : EngineState α) :
    checkActiveBoxSize gap d {st with updatePlacedDetails := b} =
      {checkActiveBoxSize gap d st with updatePlacedDetails := b} := by
  obtain ⟨n0, mp, upd, bs, lrp, ab, fi, hor, lp, ep, abf⟩ := st
  cases ab with
  | none => rfl
  | some a =>
    dsimp only [checkActiveBoxSize]
    split_ifs <;> rfl

theorem cutNewStrip_update (gap : ℕ → α) (d : α × α) (st : EngineState α)
    (plA plB : List (Detail α))
    (hne : cutNewStrip gap d {st with updatePlacedDetails := true} plB ≠
      .error .valueErr) :
    cutNewStrip gap d {st with updatePlacedDetails := false} plA =
      (cutNewStrip gap d {st with updatePlacedDetails := true} plB).map
        fun r => ({r.1 with updatePlacedDetails := false}, plA) := by
  obtain ⟨n0, mp, upd, bs, lrp, ab, fi, hor, lp, ep, abf⟩ := st
  cases lrp with
  | none => rfl
  | some l =>
    unfold cutNewStrip
    dsimp only
    by_cases hpre : d.2 + gap (lp + 1) > max l.width l.height ∨
        d.1 + gap (lp + 1) > min l.width l.height
    · simp only [if_pos hpre]
      rfl
    · simp only [if_neg hpre]
      cases hrem : pyRemove l plB with
      | none =>
        refine absurd ?_ hne
        unfold cutNewStrip
        dsimp only
        simp only [if_neg hpre, hrem]
        rfl
      | some pl' =>
        simp only [hrem]
        rfl

theorem chooseActiveBoxFromBox_update (b : Bool) (st : EngineState α) :
    chooseActiveBoxFromBox {st with updatePlacedDetails := b} =
      (chooseActiveBoxFromBox st).map fun s => {s with updatePlacedDetails := b} := by
  obtain ⟨n0, mp, upd, bs, lrp, ab, fi, hor, lp, ep, abf⟩ := st
  cases bs <;> rfl

theorem chooseActiveBox_update (gap : ℕ → α) (d : α × α) (st : EngineState α)
    (plA plB : List (Detail α))
    (hne : chooseActiveBox gap d {st with updatePlacedDetails := true} plB ≠
      .error .valueErr) :
    chooseActiveBox gap d {st with updatePlacedDetails := false} plA =
      (chooseActiveBox gap d {st with updatePlacedDetails := true} plB).map
        fun r => ({r.1 with updatePlacedDetails := false}, plA) := by
  obtain ⟨n0, mp, upd, bs, lrp, ab, fi, hor, lp, ep, abf⟩ := st
  cases ab with
  | some a => rfl
  | none =>
    dsimp only [chooseActiveBox] at hne ⊢
    split_ifs at hne ⊢ with hfit
    · cases bs <;> rfl
    · exact cutNewStrip_update gap d
        ⟨n0, mp, upd, bs, lrp, none, lp + 1, hor, lp, ep, abf⟩ plA plB hne

theorem placeDetailInActiveBox_update (d : α × α) (st : EngineState α)
    (plA plB : List (Detail α)) (hupd : st.updatePlacedDetails = true)
    (hne : placeDetailInActiveBox d st plB ≠ .error .valueErr) :
    placeDetailInActiveBox d {st with updatePlacedDetails := false} plA =
      (placeDetailInActiveBox d st plB).map
        fun r => ({r.1 with updatePlacedDetails := false}, plA) := by
  obtain ⟨n0, mp, upd, bs, lrp, ab, fi, hor, lp, ep, abf⟩ := st
  subst hupd
  cases ab with
  | none => rfl
  | some a =>
    cases hrem : pyRemove a plB with
    | none =>
      refine absurd ?_ hne
      dsimp only [placeDetailInActiveBox]
      simp only [hrem]
      rfl
    | some pl' =>
      dsimp only [placeDetailInActiveBox]
      simp only [hrem]
      rfl

theorem cutNewStrip_upd_preserved {gap : ℕ → α} {d : α × α}
    {st : EngineState α} {pl : List (Detail α)}
    {r : EngineState α × List (Detail α)}
    (h : cutNewStrip gap d st pl = .ok r) :
    r.1.updatePlacedDetails = st.updatePlacedDetails := by
  obtain ⟨n0, mp, upd, bs, lrp, ab, fi, hor, lp, ep, abf⟩ := st
  cases lrp with
  | none => cases h
  | some l =>
    unfold cutNewStrip at h
    dsimp only at h
    by_cases hpre : d.2 + gap (lp + 1) > max l.width l.height ∨
        d.1 + gap (lp + 1) > min l.width l.height
    · simp only [if_pos hpre] at h
      cases h
    · simp only [if_neg hpre] at h
      cases upd with
      | false =>
        cases h
        rfl
      | true =>
        cases hrem : pyRemove l pl with
        | none => simp only [hrem] at h; cases h
        | some pl' => simp only [hrem] at h; cases h; rfl

theorem chooseActiveBox_upd_preserved {gap : ℕ → α} {d : α × α}
    {st : EngineState α} {pl : List (Detail α)} {r : EngineState α × List (Detail α)}
    (h : chooseActiveBox gap d st pl = .ok r) :
    r.1.updatePlacedDetails = st.updatePlacedDetails := by
  obtain ⟨n0, mp, upd, bs, lrp, ab, fi, hor, lp, ep, abf⟩ := st
  cases ab with
  | some a =>
    cases h
    rfl
  | none =>
    dsimp only [chooseActiveBox] at h
    split_ifs at h with hfit
    · unfold chooseActiveBoxFromBox at h
      cases bs with
      | nil => cases h
      | cons x xs =>
        dsimp only [memPopMaxBox, Except.map] at h
        cases h
        rfl
    · have h2 := cutNewStrip_upd_preserved h
      exact h2

/-- C8: with update_placed_details = false, place_next leaves the placements
list untouched while the engine's scalar state and the box-storage contents
evolve exactly as they would with update_placed_details = true on the same
inputs (and both runs fail alike); the only divergence would be the
ValueError a true-run raises when the rectangle to remove is missing from the
list, which the hypothesis excludes. -/
theorem frame_c8 (gap : ℕ → α) (d : α × α) (st : EngineState α)
    (pl : List (Detail α))
    (hne : placeNext gap d {st with updatePlacedDetails := true} pl ≠
      .error .valueErr) :
    placeNext gap d {st with updatePlacedDetails := false} pl =
      (placeNext gap d {st with updatePlacedDetails := true} pl).map
        fun r => ({r.1 with updatePlacedDetails := false}, pl) := by
  rw [placeNext_def] at hne
  rw [placeNext_def, placeNext_def]
  rw [checkIfLrpNone_update false st pl]
  rw [checkIfLrpNone_update true st pl] at hne ⊢
  cases hc : checkIfLrpNone st pl with
  | error e => rfl
  | ok st0 =>
    rw [hc] at hne
    dsimp only [Except.map, Except.bind] at hne ⊢
    rw [checkActiveBoxSize_update false gap d st0]
    rw [checkActiveBoxSize_update true gap d st0] at hne ⊢
    have hchne : chooseActiveBox gap d
        {checkActiveBoxSize gap d st0 with updatePlacedDetails := true} pl ≠
        .error .valueErr := by
      intro habs
      rw [habs] at hne
      exact hne rfl
    rw [chooseActiveBox_update gap d (checkActiveBoxSize gap d st0) pl pl hchne]
    cases hch : chooseActiveBox gap d
        {checkActiveBoxSize gap d st0 with updatePlacedDetails := true} pl with
    | error e => rfl
    | ok r =>
      rw [hch] at hne
      dsimp only [Except.map, Except.bind] at hne ⊢
      have hupd : r.1.updatePlacedDetails = true := by
        have h2 := chooseActiveBox_upd_preserved hch
        exact h2
      exact placeDetailInActiveBox_update d r.1 pl r.2 hupd hne

theorem frame_c8_witness :
    placeNext (fun _ => (1 : ℚ)) (1, 1)
        {initState ℚ 1 5 true with updatePlacedDetails := true} [] ≠
      .error .valueErr ∧
    placeNext (fun _ => (1 : ℚ)) (1, 1)
        {initState ℚ 1 5 true with updatePlacedDetails := false} [] =
      (placeNext (fun _ => (1 : ℚ)) (1, 1)
          {initState ℚ 1 5 true with updatePlacedDetails := true} []).map
        fun r => ({r.1 with updatePlacedDetails := false}, ([] : List (Detail ℚ))) :=
  ⟨by decide, frame_c8 (fun _ => (1 : ℚ)) (1, 1) (initState ℚ 1 5 true) []
    (by decide)⟩

/-!  ## Claim C3 -/

/-- Constant slack gap 1 over ℚ: the value (1/n)^γ takes at n = 1. -/
def gapOne : ℕ → ℚ := fun _ => 1

/-- The detail together with the required slack gap fits inside whichever
active box the choose stage hands to the place stage. -/
def FitCond (gap : ℕ → α) (d : α × α) (st : EngineState α)
    (pl : List (Detail α)) : Prop :=
  ∀ st0, checkIfLrpNone st pl = .ok st0 →
  ∀ r, chooseActiveBox gap d (checkActiveBoxSize gap d st0) pl = .ok r →
  ∀ ab, r.1.activeBox = some ab →
    if r.1.isActiveBoxHorizontal then
      d.1 + gap r.1.activeBoxFirstDetailIndex ≤ ab.width ∧ d.2 ≤ ab.height
    else d.1 + gap r.1.activeBoxFirstDetailIndex ≤ ab.height ∧ d.2 ≤ ab.width

/-- A successful `place_next` from an invariant state with a fitting detail
preserves the full engine invariant. -/
theorem placeNext_inv {sheet : Detail α} {st : EngineState α}
    {pl : List (Detail α)} {d : α × α} {gap : ℕ → α}
    {r : EngineState α × List (Detail α)}
    (hInv : Inv sheet st pl) (hg : ∀ n, 0 < gap n)
    (hd1 : 0 < d.1) (hd2 : 0 < d.2) (hfit : FitCond gap d st pl)
    (h : placeNext gap d st pl = .ok r) :
    Inv sheet r.1 r.2 := by
  rw [placeNext_def] at h
  cases hc : checkIfLrpNone st pl with
  | error e =>
    rw [hc] at h
    cases h
  | ok st0 =>
    rw [hc] at h
    dsimp only [Except.bind] at h
    obtain ⟨st0', hc', hInv0⟩ := checkIfLrpNone_inv hInv
    rw [hc] at hc'
    injection hc' with he
    subst he
    have hInv1 : Inv sheet (checkActiveBoxSize gap d st0) pl :=
      checkActiveBoxSize_inv gap d hInv0
    cases hch : chooseActiveBox gap d (checkActiveBoxSize gap d st0) pl with
    | error e =>
      rw [hch] at h
      cases h
    | ok r1 =>
      rw [hch] at h
      dsimp only at h
      have hInv2 : Inv sheet r1.1 r1.2 :=
        chooseActiveBox_inv hInv1 (hg _) hd1 hd2 hch
      cases hab : r1.1.activeBox with
      | none =>
        unfold placeDetailInActiveBox at h
        rw [hab] at h
        cases h
      | some ab =>
        exact placeDetailInActiveBox_inv hInv2 hab
          (hg r1.1.activeBoxFirstDetailIndex) hd1 hd2
          (hfit st0 hc r1 hch ab hab) h

/-- C3 (amended): after every successful `place_next` call from a state
satisfying the engine invariant (which has update_placed_details = true), with
positive detail sides and positive slack gaps, and provided the detail
together with its required gap fits inside the active box the call places it
into, the placements list satisfies (I1) no two rectangles share interior
points, (I2) every rectangle lies fully inside the initial sheet, and (I3)
the areas sum to the sheet's area.  Without the fit hypothesis the claim is
false (see the counterexample): the code never checks the cross dimension of
a pre-existing active box against the incoming detail. -/
theorem place_invariants_c3 {sheet : Detail α} {st : EngineState α}
    {pl : List (Detail α)} {d : α × α} {gap : ℕ → α}
    {r : EngineState α × List (Detail α)}
    (hInv : Inv sheet st pl) (hg : ∀ n, 0 < gap n)
    (hd1 : 0 < d.1) (hd2 : 0 < d.2) (hfit : FitCond gap d st pl)
    (h : placeNext gap d st pl = .ok r) :
    r.2.Pairwise NoSharedInterior ∧ (∀ x ∈ r.2, Inside sheet x) ∧
      areaSum r.2 = darea sheet := by
  have hI := placeNext_inv hInv hg hd1 hd2 hfit h
  exact ⟨hI.2.1.imp (fun hs => hs.noSharedInterior),
    fun x hx => (hI.2.2.1 x hx).2, hI.2.2.2.1⟩

/-- The 10×10 sheet of the concrete rational runs. -/
def c3xSheet : Detail ℚ := ⟨(0, 0), (10, 10), "LRP", "lrp"⟩

/-- The LRP left after the first stripe cut. -/
def c3xLRP : Detail ℚ := ⟨(0, 2), (10, 10), "LRP", "lrp"⟩

/-- The stripe cut from the sheet by the first call. -/
def c3xStrip : Detail ℚ := ⟨(0, 0), (10, 2), "E1", "endpoint_1"⟩

/-- The first placed detail. -/
def c3xD1 : Detail ℚ := ⟨(0, 0), (1, 1), "D1", "detail"⟩

/-- The first normal box. -/
def c3xB1 : Detail ℚ := ⟨(0, 1), (1, 2), "B1", "normal_box_1"⟩

/-- The endpoint left active after the first call. -/
def c3xE1 : Detail ℚ := ⟨(1, 0), (10, 2), "E1", "endpoint_1"⟩

/-- The second placed detail of the failing run: 1 wide, 5 tall. -/
def c3xD2 : Detail ℚ := ⟨(1, 0), (2, 5), "D2", "detail"⟩

/-- The degenerate "normal box" the failing run cuts above the detail. -/
def c3xB2 : Detail ℚ := ⟨(1, 5), (2, 2), "B2", "normal_box_1"⟩

/-- The second placed detail of the fitting run: 1 wide, 1 tall. -/
def c3wD2 : Detail ℚ := ⟨(1, 0), (2, 1), "D2", "detail"⟩

/-- The normal box of the fitting run's second call. -/
def c3wB2 : Detail ℚ := ⟨(1, 1), (2, 2), "B2", "normal_box_1"⟩

/-- The endpoint left active after the second call. -/
def c3xE2 : Detail ℚ := ⟨(2, 0), (10, 2), "E1", "endpoint_1"⟩

/-- State straight after `_check_if_lrp_none` adopted the sheet as LRP. -/
def c3xStA : EngineState ℚ :=
  ⟨1, 5, true, [], some c3xSheet, none, 0, false, 0, 1, none⟩

/-- Same with the first-detail index set by `_choose_active_box`. -/
def c3xStB : EngineState ℚ :=
  ⟨1, 5, true, [], some c3xSheet, none, 1, false, 0, 1, none⟩

/-- State straight after the first stripe cut. -/
def c3xStC : EngineState ℚ :=
  ⟨1, 5, true, [], some c3xLRP, some c3xStrip, 1, true, 0, 1, some "lrp"⟩

/-- Engine state after the first call. -/
def c3xState : EngineState ℚ :=
  ⟨1, 5, true, [c3xB1], some c3xLRP, some c3xE1, 1, true, 1, 1, some "lrp"⟩

/-- Placements after the first call. -/
def c3xPl : List (Detail ℚ) := [c3xLRP, c3xD1, c3xB1, c3xE1]

/-- Result of the failing second call (1×5 detail). -/
def c3xRes : EngineState ℚ × List (Detail ℚ) :=
  (⟨1, 5, true, [c3xB1, c3xB2], some c3xLRP, some c3xE2, 1, true, 2, 1,
     some "lrp"⟩,
   [c3xLRP, c3xD1, c3xB1, c3xD2, c3xB2, c3xE2])

/-- Result of the fitting second call (1×1 detail). -/
def c3wRes : EngineState ℚ × List (Detail ℚ) :=
  (⟨1, 5, true, [c3xB1, c3wB2], some c3xLRP, some c3xE2, 1, true, 2, 1,
     some "lrp"⟩,
   [c3xLRP, c3xD1, c3xB1, c3wD2, c3wB2, c3xE2])

theorem c3x_first_call :
    placeNext gapOne (1, 1) (initState ℚ 1 5 true) [c3xSheet] =
      .ok (c3xState, c3xPl) := by
  rw [placeNext_def]
  rw [show checkIfLrpNone (initState ℚ 1 5 true) [c3xSheet] = .ok c3xStA from rfl]
  dsimp only [Except.bind]
  rw [show checkActiveBoxSize gapOne (1, 1) c3xStA = c3xStA from rfl]
  have hch : chooseActiveBox gapOne (1, 1) c3xStA [c3xSheet] =
      cutNewStrip gapOne (1, 1) c3xStB [c3xSheet] := by
    unfold chooseActiveBox
    dsimp only [c3xStA, memGetMaxBox, List.head?]
    rw [if_neg (by norm_num [gapOne])]
    rfl
  rw [hch]
  have hwh : c3xSheet.width ≤ c3xSheet.height := by
    norm_num [Detail.width, Detail.height, c3xSheet]
  have hcut : cutNewStrip gapOne (1, 1) c3xStB [c3xSheet] =
      .ok (c3xStC, [c3xStrip, c3xLRP]) := by
    unfold cutNewStrip c3xStB
    dsimp only
    rw [if_neg (by norm_num [gapOne, Detail.width, Detail.height, c3xSheet])]
    simp only [pyRemove, if_pos hwh, decide_eq_true hwh, eq_self_iff_true,
      if_true]
    norm_num [gapOne, c3xStC, c3xStrip, c3xLRP, c3xSheet, Detail.mk.injEq,
      EngineState.mk.injEq, Prod.mk.injEq]
    decide
  rw [hcut]
  dsimp only [Except.bind]
  refine Eq.trans
    (placeDetail_ok ((1 : ℚ), 1) c3xStC [c3xStrip, c3xLRP] c3xStrip rfl rfl ?_) ?_
  · decide
  · rw [show ([c3xStrip, c3xLRP].erase c3xStrip) = [c3xLRP] from by decide]
    norm_num [c3xStC, c3xState, c3xPl, c3xStrip, c3xLRP, c3xD1, c3xB1, c3xE1,
      memAdd, insertDesc, dkey, Detail.width, Detail.height, getNormalBoxType,
      getEndpointType, Detail.mk.injEq, EngineState.mk.injEq, Prod.mk.injEq]
    decide

theorem c3x_cabs (y : ℚ) : checkActiveBoxSize gapOne (1, y) c3xState = c3xState := by
  unfold checkActiveBoxSize c3xState
  dsimp only
  rw [if_neg]
  norm_num [gapOne, Detail.width, Detail.height, c3xE1]

theorem c3x_second_call :
    placeNext gapOne (1, 5) c3xState c3xPl = .ok c3xRes := by
  rw [placeNext_def]
  rw [show checkIfLrpNone c3xState c3xPl = .ok c3xState from rfl]
  dsimp only [Except.bind]
  rw [c3x_cabs]
  rw [show chooseActiveBox gapOne (1, 5) c3xState c3xPl = .ok (c3xState, c3xPl)
    from rfl]
  dsimp only [Except.bind]
  refine Eq.trans (placeDetail_ok ((1 : ℚ), 5) c3xState c3xPl c3xE1 rfl rfl ?_) ?_
  · decide
  · rw [show (c3xPl.erase c3xE1) = [c3xLRP, c3xD1, c3xB1] from by decide]
    norm_num [c3xState, c3xPl, c3xRes, c3xE1, c3xLRP, c3xD1, c3xB1, c3xD2,
      c3xB2, c3xE2, memAdd, insertDesc, dkey, Detail.width, Detail.height,
      getNormalBoxType, getEndpointType, Detail.mk.injEq, EngineState.mk.injEq,
      Prod.mk.injEq]
    decide

theorem c3w_call :
    placeNext gapOne (1, 1) c3xState c3xPl = .ok c3wRes := by
  rw [placeNext_def]
  rw [show checkIfLrpNone c3xState c3xPl = .ok c3xState from rfl]
  dsimp only [Except.bind]
  rw [c3x_cabs]
  rw [show chooseActiveBox gapOne (1, 1) c3xState c3xPl = .ok (c3xState, c3xPl)
    from rfl]
  dsimp only [Except.bind]
  refine Eq.trans (placeDetail_ok ((1 : ℚ), 1) c3xState c3xPl c3xE1 rfl rfl ?_) ?_
  · decide
  · rw [show (c3xPl.erase c3xE1) = [c3xLRP, c3xD1, c3xB1] from by decide]
    norm_num [c3xState, c3xPl, c3wRes, c3xE1, c3xLRP, c3xD1, c3xB1, c3wD2,
      c3wB2, c3xE2, memAdd, insertDesc, dkey, Detail.width, Detail.height,
      getNormalBoxType, getEndpointType, Detail.mk.injEq, EngineState.mk.injEq,
      Prod.mk.injEq]
    decide

theorem c3x_inv : Inv c3xSheet c3xState c3xPl := by
  unfold Inv
  dsimp only [c3xState]
  refine ⟨rfl, by decide, by decide, ?_, by decide, by decide, by decide,
    by decide⟩
  norm_num [c3xPl, c3xSheet, c3xLRP, c3xD1, c3xB1, c3xE1, areaSum, darea,
    Detail.width, Detail.height]

theorem c3x_fit : FitCond gapOne (1, 1) c3xState c3xPl := by
  intro st0 hst0 r hr ab hab
  rw [show checkIfLrpNone c3xState c3xPl = .ok c3xState from rfl] at hst0
  injection hst0 with h0
  subst h0
  rw [c3x_cabs] at hr
  rw [show chooseActiveBox gapOne (1, 1) c3xState c3xPl = .ok (c3xState, c3xPl)
    from rfl] at hr
  injection hr with h1
  subst h1
  dsimp only at hab
  rw [show c3xState.activeBox = some c3xE1 from rfl] at hab
  injection hab with h2
  subst h2
  norm_num [c3xState, c3xE1, gapOne, Detail.width, Detail.height]

/-- C3 counterexample: a successful second `place_next` call (update flag
true) whose input state is itself produced by a successful first call from
the initial configuration, after which the placed 1×5 detail shares interior
points with the LRP. -/
theorem place_invariants_c3_counterexample :
    placeNext gapOne (1, 1) (initState ℚ 1 5 true) [c3xSheet] =
      .ok (c3xState, c3xPl) ∧
    placeNext gapOne (1, 5) c3xState c3xPl = .ok c3xRes ∧
    c3xRes.1.updatePlacedDetails = true ∧
    ¬ c3xRes.2.Pairwise NoSharedInterior := by
  refine ⟨c3x_first_call, c3x_second_call, rfl, ?_⟩
  intro hp
  have hno : NoSharedInterior c3xLRP c3xD2 :=
    (List.pairwise_cons.mp hp).1 c3xD2 (by decide)
  exact hno ((3 / 2 : ℚ), 3)
    ⟨⟨by norm_num [c3xLRP, InteriorPt], by norm_num [c3xLRP, InteriorPt],
      by norm_num [c3xLRP, InteriorPt], by norm_num [c3xLRP, InteriorPt]⟩,
     ⟨by norm_num [c3xD2, InteriorPt], by norm_num [c3xD2, InteriorPt],
      by norm_num [c3xD2, InteriorPt], by norm_num [c3xD2, InteriorPt]⟩⟩

/-- Witness for C3 at a concrete rational run. -/
theorem place_invariants_c3_witness :
    Inv c3xSheet c3xState c3xPl ∧ (∀ n, (0 : ℚ) < gapOne n) ∧
    (0 : ℚ) < 1 ∧ FitCond gapOne (1, 1) c3xState c3xPl ∧
    placeNext gapOne (1, 1) c3xState c3xPl = .ok c3wRes ∧
    (c3wRes.2.Pairwise NoSharedInterior ∧
     (∀ x ∈ c3wRes.2, Inside c3xSheet x) ∧
     areaSum c3wRes.2 = darea c3xSheet) :=
  ⟨c3x_inv, fun _ => one_pos, one_pos, c3x_fit, c3w_call,
   place_invariants_c3 c3x_inv (fun _ => one_pos) one_pos one_pos c3x_fit
     c3w_call⟩

/-!  ## Claim C4 -/

/-- Retirement never touches the LRP field. -/
theorem checkActiveBoxSize_lrp (gap : ℕ → α) (d : α × α) (st : EngineState α) :
    (checkActiveBoxSize gap d st).lrp = st.lrp := by
  obtain ⟨n0, mp, upd, bs, lrp, ab, fi, hor, lp, ep, abf⟩ := st
  cases ab with
  | none => rfl
  | some a =>
    unfold checkActiveBoxSize
    dsimp only
    split_ifs <;> rfl

/-- After `_check_if_lrp_none` succeeds the LRP is set. -/
theorem checkIfLrpNone_ok_lrp {st st0 : EngineState α} {pl : List (Detail α)}
    (h : checkIfLrpNone st pl = .ok st0) : ∃ l, st0.lrp = some l := by
  obtain ⟨n0, mp, upd, bs, lrp, ab, fi, hor, lp, ep, abf⟩ := st
  cases lrp with
  | some l =>
    injection h with h0
    subst h0
    exact ⟨l, rfl⟩
  | none =>
    cases pl with
    | nil => cases h
    | cons x xs =>
      injection h with h0
      subst h0
      exact ⟨x, rfl⟩

/-- When `_choose_active_box` succeeds, the resulting state has an active
box. -/
theorem chooseActiveBox_ok_activeBox {gap : ℕ → α} {d : α × α}
    {st : EngineState α} {pl : List (Detail α)}
    {r : EngineState α × List (Detail α)}
    (hg : 0 < gap (st.lastPlacedIndex + 1)) (hd2 : 0 < d.2)
    (h : chooseActiveBox gap d st pl = .ok r) :
    ∃ ab, r.1.activeBox = some ab := by
  obtain ⟨n0, mp, upd, bs, lrp, ab, fi, hor, lp, ep, abf⟩ := st
  cases ab with
  | some a =>
    cases h
    exact ⟨a, rfl⟩
  | none =>
    dsimp only [chooseActiveBox] at h
    split_ifs at h with hfit
    · cases bs with
      | nil =>
        exfalso
        dsimp only [memGetMaxBox] at hfit
        simp only [List.head?_nil] at hfit
        dsimp only at hg
        linarith
      | cons b rest =>
        dsimp only [chooseActiveBoxFromBox, memPopMaxBox, Except.map] at h
        cases h
        exact ⟨b, rfl⟩
    · cases lrp with
      | none => cases h
      | some l =>
        unfold cutNewStrip at h
        dsimp only at h
        by_cases hpre : d.2 + gap (lp + 1) > max l.width l.height ∨
            d.1 + gap (lp + 1) > min l.width l.height
        · simp only [if_pos hpre] at h
          cases h
        · simp only [if_neg hpre] at h
          cases upd with
          | false =>
            cases h
            exact ⟨_, rfl⟩
          | true =>
            cases hrem : pyRemove l pl with
            | none =>
              rw [hrem] at h
              cases h
            | some pl' =>
              rw [hrem] at h
              cases h
              exact ⟨_, rfl⟩

/-- `place_next` reaches the stripe-cutting step (no active box remains after
the size check and no stored box is large enough) and the cut precondition
fails there: detail height plus the required gap exceeds the LRP's longer
side, or detail width plus the gap exceeds its shorter side. -/
def CutFail (gap : ℕ → α) (d : α × α) (st : EngineState α)
    (pl : List (Detail α)) : Prop :=
  ∃ st0, checkIfLrpNone st pl = .ok st0 ∧
    (checkActiveBoxSize gap d st0).activeBox = none ∧
    (∀ b, memGetMaxBox (checkActiveBoxSize gap d st0).boxStorage = some b →
      d.2 + gap ((checkActiveBoxSize gap d st0).lastPlacedIndex + 1) >
        min b.width b.height) ∧
    ∃ l, (checkActiveBoxSize gap d st0).lrp = some l ∧
      (d.2 + gap ((checkActiveBoxSize gap d st0).lastPlacedIndex + 1) >
          max l.width l.height ∨
       d.1 + gap ((checkActiveBoxSize gap d st0).lastPlacedIndex + 1) >
          min l.width l.height)

/-- C4: under the engine invariant with positive detail sides and gaps,
`place_next` fails with the fatal LRP-too-small error exactly when the
stripe-cutting step is reached and its precondition fails; no other error is
signalled; and on that error the driver returns the placements accumulated so
far after one further call. -/
theorem lrp_too_small_c4 {sheet : Detail α} {st : EngineState α}
    {pl : List (Detail α)} {d : α × α} {gap : ℕ → α}
    (hInv : Inv sheet st pl) (hg : ∀ n, 0 < gap n)
    (hd1 : 0 < d.1) (hd2 : 0 < d.2) :
    (∀ e, placeNext gap d st pl = .error e →
      e = .lrpTooSmall ∧ CutFail gap d st pl) ∧
    (CutFail gap d st pl → placeNext gap d st pl = .error .lrpTooSmall) ∧
    (∀ gen : ℕ → α × α, ∀ k fuel, gen k = d →
      placeNext gap d st pl = .error .lrpTooSmall →
      runAlgorithmAux gap gen k (fuel + 1) st pl = ⟨pl, st, 1⟩) := by
  obtain ⟨st0, hc, hInv0⟩ := checkIfLrpNone_inv hInv
  have hInv1 : Inv sheet (checkActiveBoxSize gap d st0) pl :=
    checkActiveBoxSize_inv gap d hInv0
  obtain ⟨l, hl⟩ : ∃ l, (checkActiveBoxSize gap d st0).lrp = some l := by
    obtain ⟨l, hl0⟩ := checkIfLrpNone_ok_lrp hc
    exact ⟨l, (checkActiveBoxSize_lrp gap d st0).trans hl0⟩
  refine ⟨?_, ?_, ?_⟩
  · intro e h
    rw [placeNext_def, hc] at h
    dsimp only [Except.bind] at h
    cases hch : chooseActiveBox gap d (checkActiveBoxSize gap d st0) pl with
    | ok r1 =>
      rw [hch] at h
      dsimp only at h
      obtain ⟨ab, hab⟩ := chooseActiveBox_ok_activeBox (hg _) hd2 hch
      have hInv2 := chooseActiveBox_inv hInv1 (hg _) hd1 hd2 hch
      have habpl : ab ∈ r1.2 := by
        have h2 := hInv2.2.2.2.2.2.1
        rw [hab] at h2
        exact h2.1
      rw [placeDetail_ok d r1.1 r1.2 ab hab hInv2.1 habpl] at h
      cases h
    | error e' =>
      rw [hch] at h
      dsimp only [Except.bind] at h
      injection h with he
      subst he
      cases hab1 : (checkActiveBoxSize gap d st0).activeBox with
      | some a =>
        unfold chooseActiveBox at hch
        rw [hab1] at hch
        cases hch
      | none =>
        unfold chooseActiveBox at hch
        rw [hab1] at hch
        dsimp only at hch
        split_ifs at hch with hle
        · exfalso
          cases hbs : (checkActiveBoxSize gap d st0).boxStorage with
          | nil =>
            rw [hbs] at hle
            dsimp only [memGetMaxBox] at hle
            simp only [List.head?_nil] at hle
            linarith [hg ((checkActiveBoxSize gap d st0).lastPlacedIndex + 1)]
          | cons b rest =>
            rw [hbs] at hch
            dsimp only [chooseActiveBoxFromBox, memPopMaxBox, Except.map] at hch
            cases hch
        · unfold cutNewStrip at hch
          dsimp only at hch
          rw [hl] at hch
          dsimp only at hch
          by_cases hpre : d.2 + gap ((checkActiveBoxSize gap d st0).lastPlacedIndex + 1) >
              max l.width l.height ∨
              d.1 + gap ((checkActiveBoxSize gap d st0).lastPlacedIndex + 1) >
              min l.width l.height
          · rw [if_pos hpre] at hch
            injection hch with he'
            refine ⟨he'.symm, st0, hc, hab1, ?_, l, hl, hpre⟩
            intro b hM
            rw [hM] at hle
            dsimp only at hle
            exact lt_of_not_le hle
          · exfalso
            rw [if_neg hpre] at hch
            have hlpl : l ∈ pl := by
              have h2 := hInv1.2.2.2.2.1
              rw [hl] at h2
              exact h2.1
            rw [pyRemove_eq, if_pos hlpl, hInv1.1] at hch
            cases hch
  · rintro ⟨st0', hc', hab', hnle, l', hl', hpre⟩
    rw [hc] at hc'
    injection hc' with he0
    subst he0
    rw [placeNext_def, hc]
    dsimp only [Except.bind]
    unfold chooseActiveBox
    rw [hab']
    dsimp only
    rw [if_neg ?hcond]
    case hcond =>
      cases hM : memGetMaxBox (checkActiveBoxSize gap d st0).boxStorage with
      | none =>
        dsimp only
        intro habs
        have := hg ((checkActiveBoxSize gap d st0).lastPlacedIndex + 1)
        linarith
      | some b =>
        dsimp only
        exact not_le.mpr (hnle b hM)
    unfold cutNewStrip
    dsimp only
    rw [hl']
    dsimp only
    rw [if_pos hpre]
  · intro gen k fuel hgen herr
    simp only [runAlgorithmAux]
    rw [hgen, herr]

/-- The 3×3 sheet of the C4 witness run. -/
def c4Sheet : Detail ℚ := ⟨(0, 0), (3, 3), "LRP", "lrp"⟩

theorem c4_inv : Inv c4Sheet (initState ℚ 1 5 true) [c4Sheet] := by
  unfold Inv
  dsimp only [initState]
  refine ⟨rfl, by decide, by decide, ?_, by decide, by decide, by decide,
    by decide⟩
  norm_num [c4Sheet, areaSum, darea, Detail.width, Detail.height]

theorem c4_cutfail : CutFail gapOne (1, 3) (initState ℚ 1 5 true) [c4Sheet] := by
  refine ⟨⟨1, 5, true, [], some c4Sheet, none, 0, false, 0, 1, none⟩, rfl, rfl,
    ?_, c4Sheet, rfl, ?_⟩
  · intro b hM
    cases hM
  · norm_num [gapOne, checkActiveBoxSize, Detail.width, Detail.height, c4Sheet]

/-- Witness for C4: a 1×3 detail on a 3×3 sheet with gap 1 cannot be placed:
the cut precondition fails, `place_next` raises LRPTooSmall, and the driver
returns the sheet alone. -/
theorem lrp_too_small_c4_witness :
    Inv c4Sheet (initState ℚ 1 5 true) [c4Sheet] ∧
    (∀ n, (0 : ℚ) < gapOne n) ∧ (0 : ℚ) < 1 ∧ (0 : ℚ) < 3 ∧
    CutFail gapOne (1, 3) (initState ℚ 1 5 true) [c4Sheet] ∧
    placeNext gapOne (1, 3) (initState ℚ 1 5 true) [c4Sheet] =
      .error .lrpTooSmall ∧
    runAlgorithmAux gapOne (fun _ => ((1 : ℚ), 3)) 0 1 (initState ℚ 1 5 true)
      [c4Sheet] = ⟨[c4Sheet], initState ℚ 1 5 true, 1⟩ := by
  have hmain := @lrp_too_small_c4 ℚ _ c4Sheet (initState ℚ 1 5 true) [c4Sheet]
    ((1 : ℚ), (3 : ℚ)) gapOne c4_inv (fun _ => one_pos) one_pos (by norm_num)
  have herr := hmain.2.1 c4_cutfail
  exact ⟨c4_inv, fun _ => one_pos, one_pos, by norm_num, c4_cutfail, herr,
    hmain.2.2 (fun _ => ((1 : ℚ), 3)) 0 0 rfl herr⟩

/-!  ## Claim C6 -/

/-- The state after `_check_if_lrp_none` on the C4 sheet. -/
def c4StA : EngineState ℚ :=
  ⟨1, 5, true, [], some c4Sheet, none, 0, false, 0, 1, none⟩

/-- The LRP-too-small witness call fails as computed. -/
theorem c4_place_err :
    placeNext gapOne (1, 3) (initState ℚ 1 5 true) [c4Sheet] =
      .error .lrpTooSmall := by
  rw [placeNext_def]
  rw [show checkIfLrpNone (initState ℚ 1 5 true) [c4Sheet] = .ok c4StA from rfl]
  dsimp only [Except.bind]
  rw [show checkActiveBoxSize gapOne (1, 3) c4StA = c4StA from rfl]
  unfold chooseActiveBox
  dsimp only [c4StA, memGetMaxBox, List.head?]
  rw [if_neg (by norm_num [gapOne])]
  unfold cutNewStrip
  dsimp only
  rw [if_pos (by norm_num [gapOne, Detail.width, Detail.height, c4Sheet])]

/-- The driver never makes more calls than its fuel allows. -/
theorem runAlgorithmAux_numCalls_le (gap : ℕ → α) (gen : ℕ → α × α) :
    ∀ fuel k st pl, (runAlgorithmAux gap gen k fuel st pl).numCalls ≤ fuel := by
  intro fuel
  induction fuel with
  | zero =>
    intro k st pl
    exact Nat.le_refl 0
  | succ n ih =>
    intro k st pl
    simp only [runAlgorithmAux]
    cases hp : placeNext gap (gen k) st pl with
    | error e =>
      exact Nat.succ_le_succ (Nat.zero_le n)
    | ok r =>
      dsimp only
      exact Nat.succ_le_succ (ih (k + 1) r.1 r.2)

/-- C6 (amended): the driver invokes `place_next` at most max_placed times;
max_placed = 0 yields placements = [sheet] with no calls; if `place_next`
raises, the driver returns the placements accumulated so far; and after a
first successful call the run continues from that call's output (so
max_placed = 1 returns exactly that output).  The original claim that the
returned placements list always starts with the sheet is false: the first
stripe cut removes the sheet from the list (see the counterexample). -/
theorem run_algorithm_c6 (gap : ℕ → α) (gen : ℕ → α × α) (base : Detail α)
    (st0 : EngineState α) :
    (∀ mp, (runAlgorithm gap gen base st0 mp).numCalls ≤ mp) ∧
    runAlgorithm gap gen base st0 0 = ⟨[base], st0, 0⟩ ∧
    (∀ k fuel st pl e, placeNext gap (gen k) st pl = .error e →
      runAlgorithmAux gap gen k (fuel + 1) st pl = ⟨pl, st, 1⟩) ∧
    (∀ mp r1 p1, placeNext gap (gen 0) st0 [base] = .ok (r1, p1) →
      runAlgorithm gap gen base st0 (mp + 1) =
        ⟨(runAlgorithmAux gap gen 1 mp r1 p1).placements,
         (runAlgorithmAux gap gen 1 mp r1 p1).finalState,
         (runAlgorithmAux gap gen 1 mp r1 p1).numCalls + 1⟩) := by
  refine ⟨fun mp => runAlgorithmAux_numCalls_le gap gen mp 0 st0 [base],
    rfl, ?_, ?_⟩
  · intro k fuel st pl e h
    simp only [runAlgorithmAux]
    rw [h]
  · intro mp r1 p1 h
    unfold runAlgorithm
    simp only [runAlgorithmAux]
    rw [h]

/-- C6 counterexample: after one successful placement the head of the
returned placements list is the residual LRP (0,2)-(10,10), not the sheet. -/
theorem run_algorithm_c6_counterexample :
    (runAlgorithm gapOne (fun _ => ((1 : ℚ), 1)) c3xSheet
        (initState ℚ 1 5 true) 1).placements.head? ≠ some c3xSheet := by
  have hrun : runAlgorithm gapOne (fun _ => ((1 : ℚ), 1)) c3xSheet
      (initState ℚ 1 5 true) 1 = ⟨c3xPl, c3xState, 1⟩ := by
    unfold runAlgorithm
    simp only [runAlgorithmAux, c3x_first_call]
  rw [hrun]
  decide

/-- Witness for C6: concrete rational runs with max_placed 0, 1 and 2, the
one-cut-one-detail shape of the max_placed = 1 run, and the accumulated-list
return on an LRP-too-small failure. -/
theorem run_algorithm_c6_witness :
    (runAlgorithm gapOne (fun _ => ((1 : ℚ), 1)) c3xSheet
        (initState ℚ 1 5 true) 2).numCalls ≤ 2 ∧
    runAlgorithm gapOne (fun _ => ((1 : ℚ), 1)) c3xSheet
        (initState ℚ 1 5 true) 0 = ⟨[c3xSheet], initState ℚ 1 5 true, 0⟩ ∧
    runAlgorithmAux gapOne (fun _ => ((1 : ℚ), 3)) 0 1 (initState ℚ 1 5 true)
      [c4Sheet] = ⟨[c4Sheet], initState ℚ 1 5 true, 1⟩ ∧
    runAlgorithm gapOne (fun _ => ((1 : ℚ), 1)) c3xSheet
        (initState ℚ 1 5 true) 1 = ⟨c3xPl, c3xState, 1⟩ ∧
    List.map (fun x => x.detail_type) c3xPl =
      ["lrp", "detail", "normal_box_1", "endpoint_1"] :=
  ⟨(run_algorithm_c6 gapOne (fun _ => ((1 : ℚ), 1)) c3xSheet
      (initState ℚ 1 5 true)).1 2,
   (run_algorithm_c6 gapOne (fun _ => ((1 : ℚ), 1)) c3xSheet
      (initState ℚ 1 5 true)).2.1,
   (run_algorithm_c6 gapOne (fun _ => ((1 : ℚ), 3)) c4Sheet
      (initState ℚ 1 5 true)).2.2.1 0 0 (initState ℚ 1 5 true) [c4Sheet]
      .lrpTooSmall c4_place_err,
   ((run_algorithm_c6 gapOne (fun _ => ((1 : ℚ), 1)) c3xSheet
      (initState ℚ 1 5 true)).2.2.2 0 c3xState c3xPl c3x_first_call).trans
     rfl,
   by decide⟩

/-!  ## Claim C2 -/

/-- Correctness of a peek result with respect to the logically-present set:
nothing exactly when nothing is present, otherwise a present rectangle of
maximal min-side. -/
def GetOk (res : Option (Detail α)) (present : List (Detail α)) : Prop :=
  match res with
  | none => present = []
  | some b => b ∈ present ∧ ∀ x ∈ present, dkey x ≤ dkey b

/-- The in-memory storage invariant: the sorted set holds exactly the
logically-present rectangles. -/
def MemInv (store present : List (Detail α)) : Prop :=
  SortedDesc store ∧ store.Perm present

theorem memInv_init : MemInv ([] : List (Detail α)) [] :=
  ⟨List.Pairwise.nil, List.Perm.refl _⟩

theorem presAdd_perm_memAdd {store present : List (Detail α)}
    (h : store.Perm present) (d : Detail α) :
    (memAdd d store).Perm (presAdd d present) := by
  unfold memAdd presAdd
  by_cases hd : d ∈ store
  · rw [if_pos hd, if_pos (h.mem_iff.mp hd)]
    exact h
  · rw [if_neg hd, if_neg (fun hp => hd (h.mem_iff.mpr hp))]
    exact (insertDesc_perm d store).trans
      ((h.cons d).trans (List.perm_append_singleton d present).symm)

theorem memExec_inv :
    ∀ (ops : List (SOp α)) (store present : List (Detail α)),
      MemInv store present →
      MemInv (memExec store present ops).1 (memExec store present ops).2 := by
  intro ops
  induction ops with
  | nil => intro store present h; exact h
  | cons op rest ih =>
    intro store present h
    cases op with
    | add d =>
      exact ih _ _ ⟨sortedDesc_memAdd h.1 d, presAdd_perm_memAdd h.2 d⟩
    | pop =>
      cases store with
      | nil =>
        exact ih _ _ h
      | cons x xs =>
        refine ih _ _ ⟨(List.pairwise_cons.mp h.1).2, ?_⟩
        have hx : x ∈ present := h.2.mem_iff.mp (List.mem_cons_self x xs)
        have h2 := h.2.erase x
        rw [List.erase_cons_head] at h2
        exact h2

theorem memInv_getOk {store present : List (Detail α)} (h : MemInv store present) :
    GetOk (memGetMaxBox store) present := by
  cases hs : store with
  | nil =>
    unfold GetOk memGetMaxBox
    rw [hs] at h
    simp only [List.head?_nil]
    exact (List.Perm.nil_eq h.2).symm
  | cons x xs =>
    unfold GetOk memGetMaxBox
    rw [hs] at h
    simp only [List.head?_cons]
    refine ⟨h.2.mem_iff.mp (List.mem_cons_self x xs), ?_⟩
    intro b hb
    exact sortedDesc_head_max h.1 (by simp) b (h.2.mem_iff.mpr hb)

/-- C2, in-memory part, packaged. -/
theorem memExec_correct (ops : List (SOp α)) :
    GetOk (memGetMaxBox (memExec [] [] ops).1) (memExec [] [] ops).2 ∧
    (memPopMaxBox (memExec [] [] ops).1).1 = memGetMaxBox (memExec [] [] ops).1 ∧
    (∀ b, memGetMaxBox (memExec [] [] ops).1 = some b →
      ((memPopMaxBox (memExec [] [] ops).1).2).Perm
        ((memExec [] [] ops).2.erase b)) := by
  have hinv := memExec_inv ops [] [] memInv_init
  refine ⟨memInv_getOk hinv, ?_, ?_⟩
  · cases hs : (memExec ([] : List (Detail α)) [] ops).1 with
    | nil => rfl
    | cons x xs => rfl
  · intro b hb
    cases hs : (memExec ([] : List (Detail α)) [] ops).1 with
    | nil =>
      rw [hs] at hb
      cases hb
    | cons x xs =>
      rw [hs] at hb
      simp only [memGetMaxBox, List.head?_cons, Option.some.injEq] at hb
      subst hb
      rw [hs] at hinv
      simp only [memPopMaxBox]
      have h2 := hinv.2.erase x
      rw [List.erase_cons_head] at h2
      exact h2

/-!  ## The top-k reload specification -/

/-- `L` consists of `min k |db|` rows of `db` of maximal min-side, in
descending order. -/
def IsTopK (k : ℕ) (db L : List (Detail α)) : Prop :=
  SortedDesc L ∧ L.length = min k db.length ∧
  ∃ rest, db.Perm (L ++ rest) ∧ ∀ x ∈ rest, ∀ y ∈ L, dkey x ≤ dkey y

/-- A reload procedure is correct on `good` databases when it always returns
the top cache-size rows. -/
def ReloadSpecOn (good : Detail α → Prop)
    (reload : ℕ → List (Detail α) → List (Detail α)) : Prop :=
  ∀ k db, (∀ d ∈ db, good d) → IsTopK k db (reload k db)

theorem sortDesc_perm (db : List (Detail α)) : (sortDesc db).Perm db :=
  List.perm_insertionSort _ db

theorem sortDesc_sorted (db : List (Detail α)) : SortedDesc (sortDesc db) := by
  haveI : IsTotal (Detail α) (fun a b => dkey b ≤ dkey a) :=
    ⟨fun a b => le_total (dkey b) (dkey a)⟩
  haveI : IsTrans (Detail α) (fun a b => dkey b ≤ dkey a) :=
    ⟨fun _ _ _ h1 h2 => le_trans h2 h1⟩
  exact List.sorted_insertionSort _ db

/-- Sorting then truncating yields the top rows: the plain hybrid reload is
correct. -/
theorem take_sortDesc_topk (k : ℕ) (db : List (Detail α)) :
    IsTopK k db ((sortDesc db).take k) := by
  refine ⟨(sortDesc_sorted db).sublist (List.take_sublist k _), ?_,
    (sortDesc db).drop k, ?_, ?_⟩
  · rw [List.length_take, (sortDesc_perm db).length_eq]
  · rw [List.take_append_drop]
    exact (sortDesc_perm db).symm
  · intro x hx y hy
    have hp := sortDesc_sorted db
    rw [← List.take_append_drop k (sortDesc db)] at hp
    exact (List.pairwise_append.mp hp).2.2 y hy x hx

theorem reloadPlain_spec :
    ReloadSpecOn (fun _ : Detail α => True) reloadPlain := by
  intro k db _
  exact take_sortDesc_topk k db

/-- The rows of the table that are logically present: those not scheduled for
name-based deletion. -/
def dbLive (s : CoordState α) : List (Detail α) :=
  s.db.filter fun r => !((s.toDelete.map Detail.name).contains r.name)

/-- Names currently held by the coordinator (table plus add-cache). -/
def stNames (s : CoordState α) : List String :=
  (s.db ++ s.toAdd).map Detail.name

/-- Coordinator invariant, without the empty-cache clause. -/
def CInvW (good : Detail α → Prop)
    (reload : ℕ → List (Detail α) → List (Detail α))
    (s : CoordState α) (present : List (Detail α)) : Prop :=
  1 ≤ s.cacheSize ∧
  SortedDesc s.toAdd ∧
  present.Perm (s.toAdd ++ dbLive s) ∧
  s.toDelete ++ s.maxCache = reload s.cacheSize s.db ∧
  (stNames s).Nodup ∧
  (∀ d ∈ s.db ++ s.toAdd, good d)

/-- Full coordinator invariant: additionally, the deletion backlog is flushed
whenever the max-cache is empty. -/
def CInv (good : Detail α → Prop)
    (reload : ℕ → List (Detail α) → List (Detail α))
    (s : CoordState α) (present : List (Detail α)) : Prop :=
  CInvW good reload s present ∧ (s.maxCache = [] → s.toDelete = [])

/-- Deleting by name removes exactly the recorded rows when names are
unambiguous. -/
theorem filter_del_perm {db T rest : List (Detail α)}
    (hnd : (db.map Detail.name).Nodup) (hp : db.Perm (T ++ rest)) :
    (db.filter fun r => !((T.map Detail.name).contains r.name)).Perm rest := by
  have hnd2 : ((T ++ rest).map Detail.name).Nodup :=
    ((hp.map Detail.name).nodup_iff).mp hnd
  rw [List.map_append] at hnd2
  have hdisj := (List.nodup_append.mp hnd2).2.2
  have h1 := hp.filter (fun r => !((T.map Detail.name).contains r.name))
  rw [List.filter_append] at h1
  have h2 : T.filter (fun r => !((T.map Detail.name).contains r.name)) = [] := by
    rw [List.filter_eq_nil_iff]
    intro a ha
    simp only [Bool.not_eq_true']
    rw [Bool.not_eq_false]
    exact List.elem_iff.mpr (List.mem_map_of_mem Detail.name ha)
  have h3 : rest.filter (fun r => !((T.map Detail.name).contains r.name)) = rest := by
    rw [List.filter_eq_self]
    intro a ha
    rw [Bool.not_eq_true']
    rw [← Bool.not_eq_true]
    intro hmem
    exact hdisj (List.elem_iff.mp hmem) (List.mem_map_of_mem Detail.name ha)
  rw [h2, h3] at h1
  exact h1

theorem cinvW_db_names {good : Detail α → Prop}
    {reload : ℕ → List (Detail α) → List (Detail α)}
    {s : CoordState α} {present : List (Detail α)}
    (h : CInvW good reload s present) : (s.db.map Detail.name).Nodup := by
  have := h.2.2.2.2.1
  rw [stNames, List.map_append] at this
  exact (List.nodup_append.mp this).1

/-- Structure of the live table rows under the invariant. -/
theorem cinv_live {good : Detail α → Prop}
    {reload : ℕ → List (Detail α) → List (Detail α)}
    {s : CoordState α} {present : List (Detail α)}
    (hspec : ReloadSpecOn good reload) (h : CInvW good reload s present) :
    ∃ rest, (dbLive s).Perm (s.maxCache ++ rest) ∧
      (∀ x ∈ rest, ∀ y ∈ s.toDelete ++ s.maxCache, dkey x ≤ dkey y) ∧
      SortedDesc (s.toDelete ++ s.maxCache) ∧
      (s.toDelete ++ s.maxCache).length = min s.cacheSize s.db.length ∧
      s.db.Perm (s.toDelete ++ (s.maxCache ++ rest)) := by
  have htop := hspec s.cacheSize s.db
    (fun d hd => h.2.2.2.2.2 d (List.mem_append_left _ hd))
  rw [← h.2.2.2.1] at htop
  obtain ⟨hsort, hlen, rest, hperm, hcross⟩ := htop
  rw [List.append_assoc] at hperm
  exact ⟨rest, filter_del_perm (cinvW_db_names h) hperm, hcross, hsort, hlen,
    hperm⟩

/-- Every live row's key is bounded by the max-cache head. -/
theorem cinv_head_bound {good : Detail α → Prop}
    {reload : ℕ → List (Detail α) → List (Detail α)}
    {s : CoordState α} {present : List (Detail α)}
    (hspec : ReloadSpecOn good reload) (h : CInvW good reload s present)
    {m : Detail α} (hm : s.maxCache.head? = some m) :
    ∀ x ∈ dbLive s, dkey x ≤ dkey m := by
  obtain ⟨rest, hperm, hcross, hsort, -, -⟩ := cinv_live hspec h
  have hmsort : SortedDesc s.maxCache :=
    hsort.sublist (List.sublist_append_right _ _)
  have hmmem : m ∈ s.maxCache := by
    cases hmc : s.maxCache with
    | nil => rw [hmc] at hm; cases hm
    | cons a l =>
      rw [hmc] at hm
      simp only [List.head?_cons, Option.some.injEq] at hm
      subst hm
      exact List.mem_cons_self a l
  intro x hx
  rcases List.mem_append.mp (hperm.mem_iff.mp hx) with hx1 | hx2
  · exact sortedDesc_head_max hmsort hm x hx1
  · exact hcross x hx2 m (List.mem_append_right _ hmmem)

/-- When the max-cache is empty under the full invariant, no live row
remains. -/
theorem cinv_empty_no_live {good : Detail α → Prop}
    {reload : ℕ → List (Detail α) → List (Detail α)}
    {s : CoordState α} {present : List (Detail α)}
    (hspec : ReloadSpecOn good reload) (h : CInv good reload s present)
    (hmc : s.maxCache = []) : dbLive s = [] := by
  obtain ⟨rest, hperm, -, -, hlen, -⟩ := cinv_live hspec h.1
  have htd := h.2 hmc
  rw [htd, hmc] at hlen
  simp only [List.append_nil, List.length_nil] at hlen
  have hdb : s.db.length = 0 := by
    rcases Nat.min_eq_zero_iff.mp hlen.symm with hk | hl
    · exact absurd hk (by have := h.1.1; omega)
    · exact hl
  have : s.db = [] := List.length_eq_zero.mp hdb
  rw [dbLive, this]
  rfl

/-- `get_max_box` is correct under the invariant. -/
theorem coordGet_ok {good : Detail α → Prop}
    {reload : ℕ → List (Detail α) → List (Detail α)}
    {s : CoordState α} {present : List (Detail α)}
    (hspec : ReloadSpecOn good reload) (h : CInv good reload s present) :
    GetOk (coordGetMaxBox s) present := by
  unfold coordGetMaxBox
  cases hta : s.toAdd with
  | nil =>
    cases hmc : s.maxCache with
    | nil =>
      simp only [hta, hmc, List.head?_nil, cmpPrefersMax, if_true]
      have hlive := cinv_empty_no_live hspec h hmc
      have hp := h.1.2.2.1
      rw [hta, hlive] at hp
      exact (List.Perm.nil_eq hp.symm).symm
    | cons m mrest =>
      simp only [hta, hmc, List.head?_nil, List.head?_cons, cmpPrefersMax,
        if_true]
      have hp := h.1.2.2.1
      rw [hta] at hp
      simp only [List.nil_append] at hp
      refine ⟨hp.mem_iff.mpr ?_, ?_⟩
      · have hbnd := cinv_live hspec h.1
        obtain ⟨rest, hperm, -, -, -, -⟩ := hbnd
        rw [hmc] at hperm
        exact hperm.mem_iff.mpr (List.mem_append_left _ (List.mem_cons_self m mrest))
      · intro x hx
        exact cinv_head_bound hspec h.1 (by rw [hmc]; rfl) x (hp.mem_iff.mp hx)
  | cons a arest =>
    cases hmc : s.maxCache with
    | nil =>
      simp only [hta, hmc, List.head?_nil, List.head?_cons, cmpPrefersMax,
        if_false, Bool.false_eq_true]
      have hlive := cinv_empty_no_live hspec h hmc
      have hp := h.1.2.2.1
      rw [hta, hlive, List.append_nil] at hp
      refine ⟨hp.mem_iff.mpr (List.mem_cons_self a arest), ?_⟩
      intro x hx
      have hsort : SortedDesc s.toAdd := h.1.2.1
      rw [hta] at hsort
      exact sortedDesc_head_max hsort (by rfl) x (hp.mem_iff.mp hx)
    | cons m mrest =>
      simp only [hta, hmc, List.head?_cons, cmpPrefersMax]
      have hp := h.1.2.2.1
      rw [hta] at hp
      have hsort : SortedDesc s.toAdd := h.1.2.1
      rw [hta] at hsort
      by_cases hcmp : dkey a ≤ dkey m
      · rw [if_pos (by simp [hcmp])]
        refine ⟨?_, ?_⟩
        · obtain ⟨rest, hperm, -, -, -, -⟩ := cinv_live hspec h.1
          rw [hmc] at hperm
          exact hp.mem_iff.mpr (List.mem_append_right _
            (hperm.mem_iff.mpr (List.mem_append_left _ (List.mem_cons_self m mrest))))
        · intro x hx
          rcases List.mem_append.mp (hp.mem_iff.mp hx) with hx1 | hx2
          · exact le_trans (sortedDesc_head_max hsort (by rfl) x hx1) hcmp
          · exact cinv_head_bound hspec h.1 (by rw [hmc]; rfl) x hx2
      · rw [if_neg (by simp [hcmp])]
        refine ⟨hp.mem_iff.mpr (List.mem_append_left _ (List.mem_cons_self a arest)), ?_⟩
        intro x hx
        rcases List.mem_append.mp (hp.mem_iff.mp hx) with hx1 | hx2
        · exact sortedDesc_head_max hsort (by rfl) x hx1
        · exact le_trans (cinv_head_bound hspec h.1 (by rw [hmc]; rfl) x hx2)
            (le_of_not_le hcmp)

/-- The deletion backlog consists of table rows. -/
theorem cinv_toDelete_mem_db {good : Detail α → Prop}
    {reload : ℕ → List (Detail α) → List (Detail α)}
    {s : CoordState α} {present : List (Detail α)}
    (hspec : ReloadSpecOn good reload) (h : CInvW good reload s present) :
    ∀ t ∈ s.toDelete, t ∈ s.db := by
  have htop := hspec s.cacheSize s.db
    (fun d hd => h.2.2.2.2.2 d (List.mem_append_left _ hd))
  rw [← h.2.2.2.1] at htop
  obtain ⟨-, -, rest, hperm, -⟩ := htop
  intro t ht
  exact hperm.mem_iff.mpr
    (List.mem_append_left _ (List.mem_append_left _ ht))

/-- `_update_caches` re-establishes the full invariant. -/
theorem coordSync_cinv {good : Detail α → Prop}
    {reload : ℕ → List (Detail α) → List (Detail α)}
    {s : CoordState α} {present : List (Detail α)}
    (hspec : ReloadSpecOn good reload) (h : CInvW good reload s present) :
    CInv good reload (coordSync reload s) present := by
  obtain ⟨hk, hsA, hp, htopeq, hnames, hgood⟩ := h
  have htamem : ∀ a ∈ s.toAdd,
      (fun r : Detail α =>
        !((s.toDelete.map (fun d => d.name)).contains r.name)) a = true := by
    intro a ha
    rw [Bool.not_eq_true']
    rw [← Bool.not_eq_true]
    intro hmem
    have hmem2 := List.elem_iff.mp hmem
    obtain ⟨t, ht, htn⟩ := List.mem_map.mp hmem2
    have htdb := cinv_toDelete_mem_db hspec
      ⟨hk, hsA, hp, htopeq, hnames, hgood⟩ t ht
    have hnames2 := hnames
    rw [stNames, List.map_append] at hnames2
    exact (List.nodup_append.mp hnames2).2.2
      (htn ▸ List.mem_map_of_mem Detail.name htdb)
      (List.mem_map_of_mem Detail.name ha)
  unfold coordSync
  dsimp only
  constructor
  · refine ⟨hk, List.Pairwise.nil, ?_, ?_, ?_, ?_⟩
    · unfold dbLive
      dsimp only
      have h1 : ∀ l : List (Detail α),
          List.filter (fun r => !(([] : List String).contains r.name)) l = l :=
        fun l => List.filter_eq_self.mpr (fun a _ => rfl)
      rw [List.map_nil, h1]
      rw [List.filter_append]
      rw [List.filter_eq_self.mpr htamem]
      exact hp.trans List.perm_append_comm
    · dsimp only
      rw [List.nil_append]
    · unfold stNames
      dsimp only
      rw [List.append_nil]
      refine List.Nodup.sublist (List.Sublist.map Detail.name ?_) hnames
      exact List.filter_sublist _
    · intro x hx
      rw [List.append_nil] at hx
      exact hgood x (List.mem_of_mem_filter hx)
  · intro _
    rfl

/-- `add_box` preserves the invariant for a fresh rectangle. -/
theorem coordAdd_cinv {good : Detail α → Prop}
    {reload : ℕ → List (Detail α) → List (Detail α)}
    {s : CoordState α} {present : List (Detail α)} {d : Detail α}
    (hspec : ReloadSpecOn good reload) (h : CInv good reload s present)
    (hfresh : d.name ∉ stNames s) (hgd : good d) :
    CInv good reload (coordAdd reload d s) (presAdd d present) := by
  obtain ⟨⟨hk, hsA, hp, htopeq, hnames, hgood⟩, h4⟩ := h
  have hdta : d ∉ s.toAdd := fun hm =>
    hfresh (by
      rw [stNames]
      exact List.mem_map_of_mem Detail.name (List.mem_append_right _ hm))
  have hddb : d ∉ s.db := fun hm =>
    hfresh (by
      rw [stNames]
      exact List.mem_map_of_mem Detail.name (List.mem_append_left _ hm))
  have hdP : d ∉ present := by
    intro hm
    rcases List.mem_append.mp (hp.mem_iff.mp hm) with h1 | h2
    · exact hdta h1
    · exact hddb (List.mem_of_mem_filter h2)
  have hmem1 : (memAdd d s.toAdd).Perm (d :: s.toAdd) := by
    unfold memAdd
    rw [if_neg hdta]
    exact insertDesc_perm d s.toAdd
  have hbase : CInv good reload {s with toAdd := memAdd d s.toAdd}
      (presAdd d present) := by
    refine ⟨⟨hk, sortedDesc_memAdd hsA d, ?_, htopeq, ?_, ?_⟩, h4⟩
    · unfold presAdd
      rw [if_neg hdP]
      show (present ++ [d]).Perm (memAdd d s.toAdd ++ dbLive s)
      refine (List.perm_append_singleton d present).trans ?_
      exact (hp.cons d).trans (hmem1.append_right _).symm
    · show ((s.db ++ memAdd d s.toAdd).map Detail.name).Nodup
      have h2 : ((s.db ++ memAdd d s.toAdd).map Detail.name).Perm
          (d.name :: stNames s) := by
        refine List.Perm.trans
          (List.Perm.map _ ((List.Perm.refl s.db).append hmem1)) ?_
        have h3 : (s.db ++ d :: s.toAdd).Perm (d :: (s.db ++ s.toAdd)) :=
          List.perm_middle
        exact h3.map Detail.name
      exact h2.nodup_iff.mpr (List.nodup_cons.mpr ⟨hfresh, hnames⟩)
    · intro x hx
      rcases List.mem_append.mp hx with h1 | h2
      · exact hgood x (List.mem_append_left _ h1)
      · rcases mem_memAdd.mp h2 with rfl | h3
        · exact hgd
        · exact hgood x (List.mem_append_right _ h3)
  unfold coordAdd
  dsimp only
  by_cases hlen : (memAdd d s.toAdd).length > s.cacheSize
  · rw [if_pos hlen]
    exact coordSync_cinv hspec hbase.1
  · rw [if_neg hlen]
    exact hbase

/-- Popping the head of the max-cache (recording it for deletion, syncing when
the cache empties) preserves the invariant on the remaining present set. -/
theorem coordPopM_cinv {good : Detail α → Prop}
    {reload : ℕ → List (Detail α) → List (Detail α)}
    {s : CoordState α} {present : List (Detail α)} {m : Detail α}
    {mrest : List (Detail α)}
    (hspec : ReloadSpecOn good reload) (h : CInv good reload s present)
    (hmc : s.maxCache = m :: mrest) :
    CInv good reload
      (if mrest.isEmpty then
        coordSync reload {s with maxCache := mrest, toDelete := s.toDelete ++ [m]}
      else {s with maxCache := mrest, toDelete := s.toDelete ++ [m]})
      (present.erase m) := by
  obtain ⟨⟨hk, hsA, hp, htopeq, hnames, hgood⟩, h4⟩ := h
  obtain ⟨rest, hpermL, hcross, hsort, hlen, hpermDb⟩ :=
    cinv_live hspec ⟨hk, hsA, hp, htopeq, hnames, hgood⟩
  rw [hmc] at hpermL hpermDb
  have hmlive : m ∈ dbLive s :=
    hpermL.mem_iff.mpr (List.mem_append_left _ (List.mem_cons_self m mrest))
  have hmdb : m ∈ s.db := List.mem_of_mem_filter hmlive
  have hmta : m ∉ s.toAdd := by
    intro hm
    have hnames2 := hnames
    rw [stNames, List.map_append] at hnames2
    exact (List.nodup_append.mp hnames2).2.2
      (List.mem_map_of_mem Detail.name hmdb)
      (List.mem_map_of_mem Detail.name hm)
  have hdb1 : s.db.Perm ((s.toDelete ++ [m]) ++ (mrest ++ rest)) := by
    refine hpermDb.trans ?_
    simp only [List.append_assoc, List.cons_append, List.singleton_append,
      List.nil_append]
    exact List.Perm.refl _
  have hlive1 :
      (dbLive {s with maxCache := mrest, toDelete := s.toDelete ++ [m]}).Perm
        (mrest ++ rest) :=
    filter_del_perm
      (@cinvW_db_names α _ good reload s present ⟨hk, hsA, hp, htopeq, hnames, hgood⟩)
      hdb1
  have hW : CInvW good reload
      {s with maxCache := mrest, toDelete := s.toDelete ++ [m]}
      (present.erase m) := by
    refine ⟨hk, hsA, ?_, ?_, hnames, hgood⟩
    · have h1 := hp.erase m
      rw [List.erase_append_right _ hmta] at h1
      refine h1.trans ?_
      refine List.Perm.append_left _ ?_
      refine ((hpermL.erase m).trans ?_).trans hlive1.symm
      rw [List.cons_append, List.erase_cons_head]
    · show (s.toDelete ++ [m]) ++ mrest = reload s.cacheSize s.db
      rw [List.append_assoc, List.singleton_append, ← hmc]
      exact htopeq
  cases mrest with
  | nil =>
    simp only [List.isEmpty_nil, if_true]
    exact coordSync_cinv hspec hW
  | cons c cs =>
    simp only [List.isEmpty_cons, Bool.false_eq_true, if_false]
    exact ⟨hW, fun habs => absurd habs (List.cons_ne_nil c cs)⟩

/-- `pop_max_box` is correct under the invariant: it raises exactly when the
storage is logically empty, and otherwise returns the `get_max_box` rectangle
and removes it. -/
theorem coordPop_ok {good : Detail α → Prop}
    {reload : ℕ → List (Detail α) → List (Detail α)}
    {s : CoordState α} {present : List (Detail α)}
    (hspec : ReloadSpecOn good reload) (h : CInv good reload s present) :
    (coordGetMaxBox s = none → coordPopMaxBox reload s = .error .indexErr) ∧
    (∀ b, coordGetMaxBox s = some b →
      ∃ s', coordPopMaxBox reload s = .ok (b, s') ∧
        CInv good reload s' (present.erase b)) := by
  cases hta : s.toAdd with
  | nil =>
    cases hmc : s.maxCache with
    | nil =>
      constructor
      · intro _
        unfold coordPopMaxBox
        rw [hta, hmc]
        rfl
      · intro b hb
        unfold coordGetMaxBox at hb
        rw [hta, hmc] at hb
        cases hb
    | cons m mrest =>
      have hget : coordGetMaxBox s = some m := by
        unfold coordGetMaxBox
        rw [hta, hmc]
        rfl
      constructor
      · intro habs
        rw [hget] at habs
        cases habs
      · intro b hb
        rw [hget] at hb
        injection hb with hb
        subst hb
        refine ⟨_, ?_, coordPopM_cinv hspec h hmc⟩
        unfold coordPopMaxBox
        rw [hta, hmc]
        rfl
  | cons a arest =>
    have hsA := h.1.2.1
    rw [hta] at hsA
    cases hmc : s.maxCache with
    | nil =>
      have hget : coordGetMaxBox s = some a := by
        unfold coordGetMaxBox
        rw [hta, hmc]
        rfl
      constructor
      · intro habs
        rw [hget] at habs
        cases habs
      · intro b hb
        rw [hget] at hb
        injection hb with hb
        subst hb
        refine ⟨{s with toAdd := arest}, ?_, ?_⟩
        · unfold coordPopMaxBox
          rw [hta, hmc]
          rfl
        · obtain ⟨⟨hk, hsA0, hp, htopeq, hnames, hgood⟩, h4⟩ := h
          rw [hta] at hp
          refine ⟨⟨hk, (List.pairwise_cons.mp hsA).2, ?_, htopeq, ?_, ?_⟩, h4⟩
          · have h1 := hp.erase a
            rw [List.cons_append, List.erase_cons_head] at h1
            exact h1
          · show ((s.db ++ arest).map Detail.name).Nodup
            rw [stNames, hta] at hnames
            exact List.Nodup.sublist
              (List.Sublist.map Detail.name
                ((List.sublist_cons_self a arest).append_left s.db)) hnames
          · intro x hx
            rcases List.mem_append.mp hx with h1 | h2
            · exact hgood x (List.mem_append_left _ h1)
            · exact hgood x (List.mem_append_right _ (hta ▸ List.mem_cons_of_mem a h2))
    | cons m mrest =>
      by_cases hcmp : dkey a ≤ dkey m
      · have hget : coordGetMaxBox s = some m := by
          unfold coordGetMaxBox
          rw [hta, hmc]
          simp only [List.head?_cons, cmpPrefersMax]
          rw [if_pos (by simp [hcmp])]
        constructor
        · intro habs
          rw [hget] at habs
          cases habs
        · intro b hb
          rw [hget] at hb
          injection hb with hb
          subst hb
          refine ⟨_, ?_, coordPopM_cinv hspec h hmc⟩
          unfold coordPopMaxBox
          rw [hta, hmc]
          simp only [List.head?_cons, cmpPrefersMax]
          rw [if_pos (by simp [hcmp])]
      · have hget : coordGetMaxBox s = some a := by
          unfold coordGetMaxBox
          rw [hta, hmc]
          simp only [List.head?_cons, cmpPrefersMax]
          rw [if_neg (by simp [hcmp])]
        constructor
        · intro habs
          rw [hget] at habs
          cases habs
        · intro b hb
          rw [hget] at hb
          injection hb with hb
          subst hb
          refine ⟨{s with toAdd := arest}, ?_, ?_⟩
          · unfold coordPopMaxBox
            rw [hta, hmc]
            simp only [List.head?_cons, cmpPrefersMax]
            rw [if_neg (by simp [hcmp])]
          · obtain ⟨⟨hk, hsA0, hp, htopeq, hnames, hgood⟩, h4⟩ := h
            rw [hta] at hp
            refine ⟨⟨hk, (List.pairwise_cons.mp hsA).2, ?_, htopeq, ?_, ?_⟩, h4⟩
            · have h1 := hp.erase a
              rw [List.cons_append, List.erase_cons_head] at h1
              exact h1
            · show ((s.db ++ arest).map Detail.name).Nodup
              rw [stNames, hta] at hnames
              exact List.Nodup.sublist
                (List.Sublist.map Detail.name
                  ((List.sublist_cons_self a arest).append_left s.db)) hnames
            · intro x hx
              rcases List.mem_append.mp hx with h1 | h2
              · exact hgood x (List.mem_append_left _ h1)
              · exact hgood x (List.mem_append_right _ (hta ▸ List.mem_cons_of_mem a h2))

/-- Whether one of the partition ranges covers a rectangle's key. -/
def coveredBy (ranges : List (α × α)) (d : Detail α) : Bool :=
  ranges.any fun r => decide (r.1 ≤ dkey d) && decide (dkey d < r.2)

/-- Transport a top-k selection along a permutation of the table. -/
theorem IsTopK.of_perm {q : ℕ} {db db' L : List (Detail α)}
    (hp : db.Perm db') (h : IsTopK q db' L) : IsTopK q db L := by
  obtain ⟨hs, hl, rest, hpr, hc⟩ := h
  exact ⟨hs, by rw [hl, hp.length_eq], rest, hp.trans hpr, hc⟩

/-- Filtering by a disjunction of mutually exclusive predicates splits. -/
theorem filter_or_perm {p q : Detail α → Bool} :
    ∀ {l : List (Detail α)}, (∀ x ∈ l, ¬(p x = true ∧ q x = true)) →
      (l.filter fun x => p x || q x).Perm (l.filter p ++ l.filter q) := by
  intro l
  induction l with
  | nil => intro _; exact List.Perm.refl _
  | cons a l ih =>
    intro hd
    have ihl := ih (fun x hx => hd x (List.mem_cons_of_mem a hx))
    by_cases hpa : p a = true
    · have hqa : ¬q a = true := fun hq => hd a (List.mem_cons_self a l) ⟨hpa, hq⟩
      rw [List.filter_cons_of_pos (by simp [hpa]),
        List.filter_cons_of_pos hpa, List.filter_cons_of_neg hqa]
      exact ihl.cons a
    · by_cases hqa : q a = true
      · rw [List.filter_cons_of_pos (by simp [hpa, hqa]),
          List.filter_cons_of_neg hpa, List.filter_cons_of_pos hqa]
        exact (ihl.cons a).trans List.perm_middle.symm
      · rw [List.filter_cons_of_neg (by simp [hpa, hqa]),
          List.filter_cons_of_neg hpa, List.filter_cons_of_neg hqa]
        exact ihl

/-- Everything below the head partition lies below its lower bound. -/
theorem ranges_below :
    ∀ (ranges : List (α × α)) (lo hi : α),
      List.Chain' (fun r1 r2 : α × α => r2.2 ≤ r1.1) ((lo, hi) :: ranges) →
      (∀ r ∈ ranges, r.1 ≤ r.2) →
      ∀ r ∈ ranges, r.2 ≤ lo := by
  intro ranges
  induction ranges with
  | nil =>
    intro lo hi _ _ r hr
    cases hr
  | cons r0 rest ih =>
    intro lo hi hchain hwf r hr
    have h01 : r0.2 ≤ lo := (List.chain'_cons.mp hchain).1
    rcases List.mem_cons.mp hr with rfl | hr2
    · exact h01
    · have hch2 : List.Chain' (fun r1 r2 : α × α => r2.2 ≤ r1.1)
          ((r0.1, r0.2) :: rest) := (List.chain'_cons.mp hchain).2
      have := ih r0.1 r0.2 hch2 (fun x hx => hwf x (List.mem_cons_of_mem r0 hx))
        r hr2
      exact le_trans this (le_trans (hwf r0 (List.mem_cons_self r0 rest)) h01)

/-- Concatenating a top-q selection with a top-remainder selection of a
dominated table yields a top-q selection of the concatenation. -/
theorem isTopK_append {q : ℕ} {A B LA LB : List (Detail α)}
    (hA : IsTopK q A LA) (hB : IsTopK (q - LA.length) B LB)
    (hcross : ∀ x ∈ B, ∀ y ∈ A, dkey x ≤ dkey y) :
    IsTopK q (A ++ B) (LA ++ LB) := by
  obtain ⟨hsA, hlA, restA, hpA, hcA⟩ := hA
  obtain ⟨hsB, hlB, restB, hpB, hcB⟩ := hB
  have hLAsub : ∀ y ∈ LA, y ∈ A := fun y hy =>
    hpA.mem_iff.mpr (List.mem_append_left _ hy)
  have hLBsub : ∀ y ∈ LB, y ∈ B := fun y hy =>
    hpB.mem_iff.mpr (List.mem_append_left _ hy)
  have hrBsub : ∀ y ∈ restB, y ∈ B := fun y hy =>
    hpB.mem_iff.mpr (List.mem_append_right _ hy)
  refine ⟨?_, ?_, restA ++ restB, ?_, ?_⟩
  · exact List.pairwise_append.mpr
      ⟨hsA, hsB, fun y hy z hz => hcross z (hLBsub z hz) y (hLAsub y hy)⟩
  · rw [List.length_append, hlA, hlB, List.length_append]
    omega
  · refine (hpA.append hpB).trans ?_
    rw [List.append_assoc, List.append_assoc]
    refine List.Perm.append_left LA ?_
    rw [← List.append_assoc, ← List.append_assoc]
    exact List.Perm.append_right restB List.perm_append_comm
  · intro x hx y hy
    rcases List.mem_append.mp hx with hx1 | hx2
    · rcases List.mem_append.mp hy with hy1 | hy2
      · exact hcA x hx1 y hy1
      · by_cases hrA : restA = []
        · rw [hrA] at hx1
          cases hx1
        · have hlen : A.length = LA.length + restA.length := by
            rw [hpA.length_eq, List.length_append]
          have hgt : 0 < restA.length := List.length_pos.mpr hrA
          have hq : LA.length = q := by omega
          have hz : LB.length = 0 := by
            rw [hlB, hq]
            simp
          rw [List.length_eq_zero.mp hz] at hy2
          cases hy2
    · rcases List.mem_append.mp hy with hy1 | hy2
      · exact hcross x (hrBsub x hx2) y (hLAsub y hy1)
      · exact hcB x hx2 y hy2

/-- The partitioned reload returns the top rows among the covered ones. -/
theorem reloadPartitionedAux_topk :
    ∀ (ranges : List (α × α)),
      List.Chain' (fun r1 r2 : α × α => r2.2 ≤ r1.1) ranges →
      (∀ r ∈ ranges, r.1 ≤ r.2) →
      ∀ (q : ℕ) (db : List (Detail α)),
        IsTopK q (db.filter (coveredBy ranges))
          (reloadPartitionedAux db ranges q) := by
  intro ranges
  induction ranges with
  | nil =>
    intro _ _ q db
    have h1 : db.filter (coveredBy []) = [] := by
      rw [List.filter_eq_nil_iff]
      intro a _
      simp [coveredBy]
    rw [h1]
    exact ⟨List.Pairwise.nil, by simp [reloadPartitionedAux], [],
      by simp [reloadPartitionedAux], by simp [reloadPartitionedAux]⟩
  | cons r0 rest ih =>
    intro hchain hwf q db
    obtain ⟨lo, hi⟩ := r0
    by_cases hq : q = 0
    · subst hq
      rw [show reloadPartitionedAux db ((lo, hi) :: rest) 0 = [] from by
        simp [reloadPartitionedAux]]
      exact ⟨List.Pairwise.nil, by simp, db.filter (coveredBy ((lo, hi) :: rest)),
        by simp, by simp⟩
    · have hrows := take_sortDesc_topk q
        (db.filter fun d => decide (lo ≤ dkey d) && decide (dkey d < hi))
      have hch2 : List.Chain' (fun r1 r2 : α × α => r2.2 ≤ r1.1) rest :=
        hchain.tail
      have hwf2 : ∀ r ∈ rest, r.1 ≤ r.2 := fun r hr =>
        hwf r (List.mem_cons_of_mem _ hr)
      have hrec := ih hch2 hwf2
        (q - ((sortDesc (db.filter fun d =>
          decide (lo ≤ dkey d) && decide (dkey d < hi))).take q).length) db
      have hbelow := ranges_below rest lo hi hchain hwf2
      have hcrossAB : ∀ x ∈ db.filter (coveredBy rest),
          ∀ y ∈ db.filter fun d => decide (lo ≤ dkey d) && decide (dkey d < hi),
          dkey x ≤ dkey y := by
        intro x hx y hy
        have hxc := List.of_mem_filter hx
        have hyc := List.of_mem_filter hy
        simp only [coveredBy, List.any_eq_true, Bool.and_eq_true,
          decide_eq_true_eq] at hxc hyc
        obtain ⟨r, hr, hr1, hr2⟩ := hxc
        exact le_trans (le_of_lt (lt_of_lt_of_le hr2 (hbelow r hr))) hyc.1
      have hperm : (db.filter (coveredBy ((lo, hi) :: rest))).Perm
          ((db.filter fun d => decide (lo ≤ dkey d) && decide (dkey d < hi)) ++
            db.filter (coveredBy rest)) := by
        have hco : ∀ x ∈ db, coveredBy ((lo, hi) :: rest) x =
            ((decide (lo ≤ dkey x) && decide (dkey x < hi)) ||
              coveredBy rest x) := by
          intro x _
          simp [coveredBy, List.any_cons]
        rw [List.filter_congr hco]
        refine filter_or_perm ?_
        intro x _ ⟨h1, h2⟩
        simp only [Bool.and_eq_true, decide_eq_true_eq] at h1
        simp only [coveredBy, List.any_eq_true, Bool.and_eq_true,
          decide_eq_true_eq] at h2
        obtain ⟨r, hr, hr1, hr2⟩ := h2
        have := lt_of_lt_of_le hr2 (hbelow r hr)
        exact absurd h1.1 (not_le.mpr this)
      refine IsTopK.of_perm hperm ?_
      have hcomb := isTopK_append hrows hrec hcrossAB
      rw [show reloadPartitionedAux db ((lo, hi) :: rest) q =
        ((sortDesc (db.filter fun d =>
          decide (lo ≤ dkey d) && decide (dkey d < hi))).take q) ++
          reloadPartitionedAux db rest
            (q - ((sortDesc (db.filter fun d =>
              decide (lo ≤ dkey d) && decide (dkey d < hi))).take q).length) from by
        conv_lhs => rw [reloadPartitionedAux]
        rw [if_neg hq]]
      exact hcomb

/-- The partitioned reload satisfies the top-k specification on rectangles
whose keys the ranges cover. -/
theorem reloadPartitioned_spec (ranges : List (α × α))
    (hchain : List.Chain' (fun r1 r2 : α × α => r2.2 ≤ r1.1) ranges)
    (hwf : ∀ r ∈ ranges, r.1 ≤ r.2) :
    ReloadSpecOn (fun d => ∃ r ∈ ranges, r.1 ≤ dkey d ∧ dkey d < r.2)
      (reloadPartitioned ranges) := by
  intro k db hgood
  have h1 : db.filter (coveredBy ranges) = db := by
    rw [List.filter_eq_self]
    intro a ha
    obtain ⟨r, hr, h1, h2⟩ := hgood a ha
    simp only [coveredBy, List.any_eq_true, Bool.and_eq_true, decide_eq_true_eq]
    exact ⟨r, hr, h1, h2⟩
  have := reloadPartitionedAux_topk ranges hchain hwf k db
  rw [h1] at this
  exact this

theorem coordExec_append (reload : ℕ → List (Detail α) → List (Detail α))
    (ops ops' : List (SOp α)) :
    ∀ (s : CoordState α) (P : List (Detail α)),
      coordExec reload s P (ops ++ ops') =
        coordExec reload (coordExec reload s P ops).1
          (coordExec reload s P ops).2 ops' := by
  induction ops with
  | nil => intro s P; rfl
  | cons op rest ih =>
    intro s P
    cases op with
    | add d =>
      rw [List.cons_append]
      dsimp only [coordExec]
      exact ih _ _
    | pop =>
      rw [List.cons_append]
      dsimp only [coordExec]
      cases hpp : coordPopMaxBox reload s with
      | error e => exact ih _ _
      | ok rs => exact ih _ _

theorem stNames_sync_sub (reload : ℕ → List (Detail α) → List (Detail α))
    (s : CoordState α) :
    ∀ x ∈ stNames (coordSync reload s), x ∈ stNames s := by
  intro x hx
  unfold stNames coordSync at hx
  dsimp only at hx
  rw [List.append_nil] at hx
  obtain ⟨r, hr, rfl⟩ := List.mem_map.mp hx
  exact List.mem_map_of_mem Detail.name (List.mem_of_mem_filter hr)

theorem stNames_add_sub (reload : ℕ → List (Detail α) → List (Detail α))
    (d : Detail α) (s : CoordState α) :
    ∀ x ∈ stNames (coordAdd reload d s), x = d.name ∨ x ∈ stNames s := by
  have hbase : ∀ x ∈ stNames {s with toAdd := memAdd d s.toAdd},
      x = d.name ∨ x ∈ stNames s := by
    intro x hx
    unfold stNames at hx
    dsimp only at hx
    obtain ⟨r, hr, rfl⟩ := List.mem_map.mp hx
    rcases List.mem_append.mp hr with h1 | h2
    · exact Or.inr (List.mem_map_of_mem Detail.name (List.mem_append_left _ h1))
    · rcases mem_memAdd.mp h2 with rfl | h3
      · exact Or.inl rfl
      · exact Or.inr
          (List.mem_map_of_mem Detail.name (List.mem_append_right _ h3))
  intro x hx
  unfold coordAdd at hx
  dsimp only at hx
  by_cases hlen : (memAdd d s.toAdd).length > s.cacheSize
  · rw [if_pos hlen] at hx
    exact hbase x (stNames_sync_sub reload _ x hx)
  · rw [if_neg hlen] at hx
    exact hbase x hx

theorem stNames_pop_sub (reload : ℕ → List (Detail α) → List (Detail α))
    {s s' : CoordState α} {b : Detail α}
    (h : coordPopMaxBox reload s = .ok (b, s')) :
    ∀ x ∈ stNames s', x ∈ stNames s := by
  unfold coordPopMaxBox at h
  split_ifs at h with hc
  · cases hmc : s.maxCache with
    | nil =>
      rw [hmc] at h
      cases h
    | cons m mr =>
      rw [hmc] at h
      dsimp only at h
      injection h with hpair
      have hs' : s' = if mr.isEmpty then
          coordSync reload {s with maxCache := mr, toDelete := s.toDelete ++ [m]}
        else {s with maxCache := mr, toDelete := s.toDelete ++ [m]} :=
        (congrArg Prod.snd hpair).symm
      subst hs'
      cases mr with
      | nil =>
        simp only [List.isEmpty_nil, if_true]
        intro x hx
        have h2 := stNames_sync_sub reload
          {s with maxCache := [], toDelete := s.toDelete ++ [m]} x hx
        exact h2
      | cons c cs =>
        simp only [List.isEmpty_cons, Bool.false_eq_true, if_false]
        intro x hx
        exact hx
  · cases hta : s.toAdd with
    | nil =>
      rw [hta] at h
      cases h
    | cons a ar =>
      rw [hta] at h
      injection h with hpair
      have hs' : s' = {s with toAdd := ar} := (congrArg Prod.snd hpair).symm
      subst hs'
      intro x hx
      unfold stNames at hx ⊢
      dsimp only at hx
      obtain ⟨r, hr, rfl⟩ := List.mem_map.mp hx
      rcases List.mem_append.mp hr with h1 | h2
      · exact List.mem_map_of_mem Detail.name (List.mem_append_left _ h1)
      · exact List.mem_map_of_mem Detail.name
          (List.mem_append_right _ (hta ▸ List.mem_cons_of_mem a h2))

theorem nodup_transport {A S N : List String} (hA : A.Nodup)
    (hSN : (S ++ N).Nodup) (hsub : ∀ x ∈ A, x ∈ S) : (A ++ N).Nodup := by
  rcases List.nodup_append.mp hSN with ⟨-, hN, hdisj⟩
  exact List.nodup_append.mpr ⟨hA, hN, fun a ha => hdisj (hsub a ha)⟩

/-- The coordinator invariant is maintained by arbitrary operation
histories whose added names are globally fresh. -/
theorem coordExec_cinv {good : Detail α → Prop}
    {reload : ℕ → List (Detail α) → List (Detail α)}
    (hspec : ReloadSpecOn good reload) :
    ∀ (ops : List (SOp α)) (s : CoordState α) (P : List (Detail α)),
      CInv good reload s P →
      (stNames s ++ (opsAdds ops).map Detail.name).Nodup →
      (∀ d ∈ opsAdds ops, good d) →
      CInv good reload (coordExec reload s P ops).1
        (coordExec reload s P ops).2 := by
  intro ops
  induction ops with
  | nil =>
    intro s P h _ _
    exact h
  | cons op rest ih =>
    intro s P h hnd hgood
    cases op with
    | add d =>
      dsimp only [coordExec]
      have hnd2 : ((d.name :: stNames s) ++
          (opsAdds rest).map Detail.name).Nodup := by
        refine (List.Perm.nodup_iff ?_).mp hnd
        show (stNames s ++ d.name :: (opsAdds rest).map Detail.name).Perm _
        rw [List.cons_append]
        exact List.perm_middle
      have hfresh : d.name ∉ stNames s := by
        have h1 := (List.nodup_append.mp hnd2).1
        exact (List.nodup_cons.mp h1).1
      have h2 := coordAdd_cinv hspec h hfresh (hgood d (List.mem_cons_self _ _))
      refine ih _ _ h2 ?_ (fun x hx => hgood x (List.mem_cons_of_mem _ hx))
      refine nodup_transport h2.1.2.2.2.2.1 hnd2 ?_
      intro x hx
      rcases stNames_add_sub reload d s x hx with rfl | h3
      · exact List.mem_cons_self _ _
      · exact List.mem_cons_of_mem _ h3
    | pop =>
      dsimp only [coordExec]
      cases hpp : coordPopMaxBox reload s with
      | error e =>
        exact ih _ _ h hnd hgood
      | ok rs =>
        obtain ⟨b, s'⟩ := rs
        cases hg : coordGetMaxBox s with
        | none =>
          have h1 := (coordPop_ok hspec h).1 hg
          rw [hpp] at h1
          cases h1
        | some c =>
          obtain ⟨s'', hpop2, hcinv2⟩ := (coordPop_ok hspec h).2 c hg
          rw [hpp] at hpop2
          injection hpop2 with hpair
          injection hpair with hb hs
          subst hb
          subst hs
          refine ih _ _ hcinv2 ?_ hgood
          refine nodup_transport hcinv2.1.2.2.2.2.1 hnd ?_
          exact stNames_pop_sub reload hpp

/-- Joint correctness of peek and pop against the logically-present set for a
cached coordinator. -/
def CoordOk (reload : ℕ → List (Detail α) → List (Detail α)) (k : ℕ)
    (ops : List (SOp α)) : Prop :=
  GetOk (coordGetMaxBox (coordExec reload (initCoord α k) [] ops).1)
    (coordExec reload (initCoord α k) [] ops).2 ∧
  (coordGetMaxBox (coordExec reload (initCoord α k) [] ops).1 = none →
    coordPopMaxBox reload (coordExec reload (initCoord α k) [] ops).1 =
      .error .indexErr) ∧
  (∀ b, coordGetMaxBox (coordExec reload (initCoord α k) [] ops).1 = some b →
    ∃ s', coordPopMaxBox reload (coordExec reload (initCoord α k) [] ops).1 =
        .ok (b, s') ∧
      coordExec reload (initCoord α k) [] (ops ++ [.pop]) =
        (s', (coordExec reload (initCoord α k) [] ops).2.erase b))

theorem coordOk_of_spec {good : Detail α → Prop}
    {reload : ℕ → List (Detail α) → List (Detail α)}
    (hspec : ReloadSpecOn good reload) (k : ℕ) (hk : 1 ≤ k)
    (ops : List (SOp α)) (hnames : ((opsAdds ops).map Detail.name).Nodup)
    (hgood : ∀ d ∈ opsAdds ops, good d) :
    CoordOk reload k ops := by
  have hreload0 : reload k [] = [] := by
    have h1 := (hspec k [] (fun d hd => absurd hd (List.not_mem_nil d))).2.1
    simp only [List.length_nil, Nat.min_zero] at h1
    exact List.length_eq_zero.mp h1
  have hinit : CInv good reload (initCoord α k) [] := by
    refine ⟨⟨hk, List.Pairwise.nil, List.Perm.refl _, ?_, List.nodup_nil, ?_⟩,
      fun _ => rfl⟩
    · exact hreload0.symm
    · intro d hd
      cases hd
  have hmain := coordExec_cinv hspec ops (initCoord α k) [] hinit hnames hgood
  refine ⟨coordGet_ok hspec hmain, (coordPop_ok hspec hmain).1, ?_⟩
  intro b hb
  obtain ⟨s', hpop, hcinv⟩ := (coordPop_ok hspec hmain).2 b hb
  refine ⟨s', hpop, ?_⟩
  rw [coordExec_append]
  dsimp only [coordExec]
  rw [hpop]

/-- C2 claim theorem (amended). -/
theorem storage_c2 (k : ℕ) (ops : List (SOp α)) (ranges : List (α × α))
    (hk : 1 ≤ k)
    (hnames : ((opsAdds ops).map Detail.name).Nodup)
    (hchain : List.Chain' (fun r1 r2 : α × α => r2.2 ≤ r1.1) ranges)
    (hwf : ∀ r ∈ ranges, r.1 ≤ r.2)
    (hcov : ∀ d ∈ opsAdds ops, ∃ r ∈ ranges, r.1 ≤ dkey d ∧ dkey d < r.2) :
    (GetOk (memGetMaxBox (memExec [] [] ops).1) (memExec [] [] ops).2 ∧
      (memPopMaxBox (memExec [] [] ops).1).1 =
        memGetMaxBox (memExec [] [] ops).1 ∧
      ∀ b, memGetMaxBox (memExec [] [] ops).1 = some b →
        ((memPopMaxBox (memExec [] [] ops).1).2).Perm
          ((memExec [] [] ops).2.erase b)) ∧
    CoordOk reloadPlain k ops ∧
    CoordOk (reloadPartitioned ranges) k ops := by
  refine ⟨memExec_correct ops, ?_, ?_⟩
  · exact coordOk_of_spec reloadPlain_spec k hk ops hnames (fun _ _ => trivial)
  · exact coordOk_of_spec (reloadPartitioned_spec ranges hchain hwf) k hk ops
      hnames hcov

/-- Two rectangles that share the name of an engine-produced normal box. -/
def c2A : Detail ℚ := ⟨(0, 0), (5, 5), "X", "normal_box_1"⟩

def c2B : Detail ℚ := ⟨(0, 0), (3, 3), "X", "normal_box_1"⟩

def c2W : Detail ℚ := ⟨(0, 0), (2, 2), "W", "normal_box_1"⟩

def c2S2 : CoordState ℚ := ⟨1, [], [c2A], [], [c2A, c2B]⟩

def c2S3 : CoordState ℚ := ⟨1, [], [], [], []⟩

theorem c2_key : dkey c2B ≤ dkey c2A := by
  norm_num [dkey, Detail.width, Detail.height, c2A, c2B]

theorem c2_coordAdd2 :
    coordAdd reloadPlain c2B (⟨1, [c2A], [], [], []⟩ : CoordState ℚ) = c2S2 := by
  have hmemadd : memAdd c2B [c2A] = [c2A, c2B] := by
    rw [memAdd, if_neg (by decide), insertDesc, if_neg (not_lt.mpr c2_key)]
    rfl
  have hsort : sortDesc [c2A, c2B] = [c2A, c2B] := by
    simp only [sortDesc, List.insertionSort, List.orderedInsert]
    rw [if_pos c2_key]
  rw [coordAdd]
  dsimp only
  rw [hmemadd]
  rw [if_pos (by decide)]
  rw [coordSync]
  dsimp only
  have hfil : List.filter
      (fun r : Detail ℚ =>
        !(List.map (fun d : Detail ℚ => d.name) []).contains r.name)
      ([] ++ [c2A, c2B]) = [c2A, c2B] := by decide
  rw [hfil]
  have hrel : reloadPlain 1 [c2A, c2B] = [c2A] := by
    rw [reloadPlain, hsort]
    rfl
  rw [hrel]
  rfl

theorem c2_exec :
    coordExec reloadPlain (initCoord ℚ 1) []
      [SOp.add c2A, SOp.add c2B, SOp.pop] = (c2S3, [c2B]) := by
  rw [show coordExec reloadPlain (initCoord ℚ 1) []
      [SOp.add c2A, SOp.add c2B, SOp.pop] =
      coordExec reloadPlain (coordAdd reloadPlain c2B ⟨1, [c2A], [], [], []⟩)
        [c2A, c2B] [SOp.pop] from rfl]
  rw [c2_coordAdd2]
  rfl

/-- C2 counterexample: with duplicate names the hybrid storage loses a
logically-present rectangle. -/
theorem storage_c2_counterexample :
    (coordExec reloadPlain (initCoord ℚ 1) []
        [SOp.add c2A, SOp.add c2B, SOp.pop]).2 = [c2B] ∧
    coordGetMaxBox (coordExec reloadPlain (initCoord ℚ 1) []
        [SOp.add c2A, SOp.add c2B, SOp.pop]).1 = none ∧
    ¬ GetOk
        (coordGetMaxBox (coordExec reloadPlain (initCoord ℚ 1) []
          [SOp.add c2A, SOp.add c2B, SOp.pop]).1)
        (coordExec reloadPlain (initCoord ℚ 1) []
          [SOp.add c2A, SOp.add c2B, SOp.pop]).2 := by
  rw [c2_exec]
  refine ⟨rfl, rfl, ?_⟩
  intro hg
  exact List.cons_ne_nil c2B [] hg

/-- Witness for C2 at a concrete history, cache size and range list. -/
theorem storage_c2_witness :
    (GetOk (memGetMaxBox (memExec [] [] [SOp.add c2W]).1)
        (memExec [] [] [SOp.add c2W]).2 ∧
      (memPopMaxBox (memExec [] [] [SOp.add c2W]).1).1 =
        memGetMaxBox (memExec [] [] [SOp.add c2W]).1 ∧
      ∀ b, memGetMaxBox (memExec [] [] [SOp.add c2W]).1 = some b →
        ((memPopMaxBox (memExec [] [] [SOp.add c2W]).1).2).Perm
          ((memExec [] [] [SOp.add c2W]).2.erase b)) ∧
    CoordOk reloadPlain 1 [SOp.add c2W] ∧
    CoordOk (reloadPartitioned [((0 : ℚ), 10)]) 1 [SOp.add c2W] :=
  storage_c2 1 [SOp.add c2W] [((0 : ℚ), 10)] (by decide) (by decide)
    (by simp) (by norm_num)
    (by
      intro d hd
      rw [show opsAdds [SOp.add c2W] = [c2W] from rfl] at hd
      rw [List.mem_singleton] at hd
      subst hd
      refine ⟨((0 : ℚ), 10), List.mem_singleton.mpr rfl, ?_, ?_⟩
      · norm_num [dkey, Detail.width, Detail.height, c2W]
      · norm_num [dkey, Detail.width, Detail.height, c2W])

/-!  ## Claim C7 -/

/-- C7 counterexample: with max_placed = 10 and B = 5 the code creates
10 // 5 + 1 = 3 partitions, not ⌈10 / 5⌉ = (10 + 5 − 1) / 5 = 2 as claimed. -/
theorem createPartitionRanges_count_counterexample :
    (createPartitionRanges 1 1 10 5).length ≠ (10 + 5 - 1) / 5 := by
  simp [createPartitionRanges]

/-- C7 (amended): the partitioned storage creates exactly
P = ⌊max_placed / B⌋ + 1 partitions, where partition i covers
[(1/(n₀+(i+1)·B))^γ, (1/(n₀+i·B))^γ), except that partition 0's upper bound is
raised to 1 and partition P−1's lower bound is lowered to 0. -/
theorem createPartitionRanges_c7 (n0 : ℕ) (gamma : ℝ) (maxPlaced B i : ℕ)
    (hn0 : 1 ≤ n0) (hgamma : 0 < gamma) (hmp : 1 ≤ maxPlaced) (hB : 1 ≤ B)
    (hi : i < maxPlaced / B + 1) :
    (createPartitionRanges n0 gamma maxPlaced B).length = maxPlaced / B + 1 ∧
    (createPartitionRanges n0 gamma maxPlaced B)[i]? =
      some (if i = maxPlaced / B then 0 else (1 / ((n0 + (i + 1) * B : ℕ) : ℝ)) ^ gamma,
            if i = 0 then 1 else (1 / ((n0 + i * B : ℕ) : ℝ)) ^ gamma) := by
  constructor
  · simp [createPartitionRanges]
  · simp [createPartitionRanges, List.getElem?_map, List.getElem?_range, hi]

/-!  ## Claim C10 -/

/-- Whether an Except value is a success. -/
def isOkE {ε β : Type} : Except ε β → Bool
  | .ok _ => true
  | .error _ => false

/-- C10: on an empty storage, `get_max_box` returns None in both the in-memory
and hybrid variants and the in-memory `pop_max_box` returns None, but the
hybrid `pop_max_box` (the two-None comparator case preferring the max-cache
side) raises IndexError; whenever `get_max_box` returns a box — in particular
under the engine's usage, which pops only after a successful peek — the hybrid
pop succeeds. -/
theorem empty_storage_pop_c10 {β : Type} [LinearOrderedField β] (cacheSize : ℕ)
    (reload : ℕ → List (Detail β) → List (Detail β)) (s : CoordState β)
    (hne : coordGetMaxBox s ≠ none) :
    memGetMaxBox ([] : List (Detail β)) = none ∧
    memPopMaxBox ([] : List (Detail β)) = (none, []) ∧
    coordGetMaxBox (initCoord β cacheSize) = none ∧
    coordPopMaxBox reload (initCoord β cacheSize) = .error .indexErr ∧
    isOkE (coordPopMaxBox reload s) = true := by
  refine ⟨rfl, rfl, rfl, rfl, ?_⟩
  obtain ⟨k, ta, mc, td, db⟩ := s
  unfold coordGetMaxBox coordPopMaxBox at *
  cases ta with
  | nil =>
    cases mc with
    | nil => simp [cmpPrefersMax] at hne
    | cons m rest => simp [cmpPrefersMax, isOkE]
  | cons a ta' =>
    cases mc with
    | nil => simp [cmpPrefersMax, isOkE]
    | cons m rest =>
      by_cases hcmp : dkey a ≤ dkey m
      · simp [cmpPrefersMax, hcmp, isOkE]
      · simp [cmpPrefersMax, hcmp, isOkE]

/-- A hybrid-storage state over ℚ whose to-add cache holds one box. -/
def c10State : CoordState ℚ :=
  { cacheSize := 1,
    toAdd := [{ bottom_left := (0, 0), top_right := (1, 1),
                name := "B1", detail_type := "normal_box_1" }],
    maxCache := [], toDelete := [], db := [] }

/-- Witness for C10 on a one-element to-add cache over ℚ. -/
theorem empty_storage_pop_c10_witness :
    (coordGetMaxBox c10State ≠ none) ∧
    (memGetMaxBox ([] : List (Detail ℚ)) = none ∧
     memPopMaxBox ([] : List (Detail ℚ)) = (none, []) ∧
     coordGetMaxBox (initCoord ℚ 3) = none ∧
     coordPopMaxBox reloadPlain (initCoord ℚ 3) = .error .indexErr ∧
     isOkE (coordPopMaxBox reloadPlain c10State) = true) :=
  ⟨by decide, empty_storage_pop_c10 3 reloadPlain c10State (by decide)⟩

/-!  ## Claim C1 -/

/-- The active box of the C1 scenario: a unit square endpoint. -/
def c1Box : Detail ℝ :=
  { bottom_left := (0, 0), top_right := (1, 1), name := "E1",
    detail_type := "endpoint_1" }

/-- The engine state of the C1 scenario: γ = 1, the active box is `c1Box`,
horizontal, with first-detail index 1 and empty storage. -/
def c1State : EngineState ℝ :=
  { n0 := 1, maxPlaced := 5, updatePlacedDetails := true, boxStorage := [],
    lrp := some { bottom_left := (0, 0), top_right := (3, 3), name := "LRP",
                  detail_type := "lrp" },
    activeBox := some c1Box, activeBoxFirstDetailIndex := 1,
    isActiveBoxHorizontal := true, lastPlacedIndex := 1, endpointsPlaced := 1,
    activeBoxFrom := some "lrp" }

/-- Helper: the retirement branch of `_check_active_box_size`, for any gap
function. -/
theorem checkActiveBoxSize_retire_eq (gap : ℕ → α) (d : α × α)
    (st : EngineState α) (ab : Detail α) (hab : st.activeBox = some ab)
    (hcond : (st.isActiveBoxHorizontal = true ∧
        d.1 + gap st.activeBoxFirstDetailIndex > ab.width) ∨
      (st.isActiveBoxHorizontal = false ∧
        d.1 + gap st.activeBoxFirstDetailIndex > ab.height)) :
    checkActiveBoxSize gap d st =
      {st with boxStorage := memAdd ab st.boxStorage,
               activeBox := none,
               endpointsPlaced := st.endpointsPlaced + 1} := by
  unfold checkActiveBoxSize
  rw [hab]
  exact if_pos hcond

/-- The C1 retirement condition holds in the γ = 1 scenario. -/
theorem c1State_retire_cond :
    (c1State.isActiveBoxHorizontal = true ∧
      (1 : ℝ) + requiredGap 1 c1State.activeBoxFirstDetailIndex > c1Box.width) ∨
    (c1State.isActiveBoxHorizontal = false ∧
      (1 : ℝ) + requiredGap 1 c1State.activeBoxFirstDetailIndex > c1Box.height) := by
  left
  refine ⟨rfl, ?_⟩
  have hgap : requiredGap 1 1 = 1 := by simp [requiredGap, Real.rpow_one]
  show (1 : ℝ) + requiredGap 1 1 > c1Box.width
  rw [hgap]
  norm_num [c1Box, Detail.width]

/-- C1 counterexample: retiring the active box does change the box-storage
contents — with γ = 1 and detail (1, 1), the gap is (1/1)^1 = 1, the total
length 2 exceeds the active box's width 1, and the retired box is added to
storage. -/
theorem retire_active_box_counterexample :
    (checkActiveBoxSize (requiredGap 1) ((1 : ℝ), 1) c1State).boxStorage ≠
      c1State.boxStorage := by
  rw [checkActiveBoxSize_retire_eq (requiredGap 1) ((1 : ℝ), 1) c1State c1Box rfl
    c1State_retire_cond]
  show memAdd c1Box c1State.boxStorage ≠ c1State.boxStorage
  show memAdd c1Box [] ≠ []
  simp [memAdd, insertDesc]

/-- C1 (amended): when an active box exists and the detail width plus the
slack gap (1/active_box_first_detail_index)^γ exceeds the active box's
major-axis length, the engine ADDS the active box to box storage (so the
storage gains exactly that box), increments endpoints_placed by one, and sets
active_box to absent. -/
theorem retire_active_box_c1 (gamma : ℝ) (d : ℝ × ℝ) (st : EngineState ℝ)
    (ab : Detail ℝ) (hab : st.activeBox = some ab)
    (hcond : (st.isActiveBoxHorizontal = true ∧
        d.1 + requiredGap gamma st.activeBoxFirstDetailIndex > ab.width) ∨
      (st.isActiveBoxHorizontal = false ∧
        d.1 + requiredGap gamma st.activeBoxFirstDetailIndex > ab.height)) :
    checkActiveBoxSize (requiredGap gamma) d st =
      {st with boxStorage := memAdd ab st.boxStorage,
               activeBox := none,
               endpointsPlaced := st.endpointsPlaced + 1} :=
  checkActiveBoxSize_retire_eq (requiredGap gamma) d st ab hab hcond

/-- Witness for C1 on the γ = 1 scenario. -/
theorem retire_active_box_c1_witness :
    (c1State.activeBox = some c1Box ∧
     ((c1State.isActiveBoxHorizontal = true ∧
         (1 : ℝ) + requiredGap 1 c1State.activeBoxFirstDetailIndex > c1Box.width) ∨
      (c1State.isActiveBoxHorizontal = false ∧
         (1 : ℝ) + requiredGap 1 c1State.activeBoxFirstDetailIndex > c1Box.height))) ∧
    checkActiveBoxSize (requiredGap 1) ((1 : ℝ), 1) c1State =
      {c1State with boxStorage := memAdd c1Box c1State.boxStorage,
                    activeBox := none,
                    endpointsPlaced := c1State.endpointsPlaced + 1} :=
  ⟨⟨rfl, c1State_retire_cond⟩,
   retire_active_box_c1 1 ((1 : ℝ), 1) c1State c1Box rfl c1State_retire_cond⟩

/-- Witness for C7 at n₀ = 1, γ = 1, max_placed = 1, B = 1, i = 0. -/
theorem createPartitionRanges_c7_witness :
    (1 ≤ 1 ∧ (0 : ℝ) < 1 ∧ 0 < 1 / 1 + 1) ∧
    ((createPartitionRanges 1 1 1 1).length = 1 / 1 + 1 ∧
     (createPartitionRanges 1 1 1 1)[0]? =
       some (if 0 = 1 / 1 then 0 else (1 / ((1 + (0 + 1) * 1 : ℕ) : ℝ)) ^ (1 : ℝ),
             if 0 = 0 then 1 else (1 / ((1 + 0 * 1 : ℕ) : ℝ)) ^ (1 : ℝ))) :=
  ⟨⟨le_refl 1, by norm_num, by norm_num⟩,
   createPartitionRanges_c7 1 1 1 1 0 (le_refl 1) (by norm_num) (le_refl 1)
     (le_refl 1) (by norm_num)⟩

end SlackPack
